import Mathlib

/-!
Canny edge detector (`keymolen::Canny`), shallow embedding.

The embedding follows `src/canny.cpp`.

* Byte buffers (`src`, `dst`, `s_`) are `List Nat`; a read `buf[i]` is
  `buf.getD i 0` and a write `buf[i] = v` is `buf.set i v`.
* The `double` buffers `G_` and `M_` only ever hold `0` or
  `sqrt (cx*cx + cy*cy)` for integers `cx`, `cy` with `|cx|, |cy| ≤ 1020`.
  A cell is stored as its square, the natural number `cx*cx + cy*cy`.
  Order comparisons between two cells are comparisons of the squares, and
  `cell > t` for an integer threshold `t` is `t < 0 ∨ t*t < square`
  (`magGt`, justified against `Real.sqrt` by `magGt_iff_sqrt`).
* `atan2 (cy, cx)` in degrees is only compared with the odd multiples of
  22.5; these comparisons are decided exactly on the integers `cx`, `cy`
  (`thetaLt`, a sign test of `a + b * sqrt 2` justified by `sqrt2Neg_iff`). No
  integer vector lies on such a boundary, so `<` and `<=` agree there.
* Loop counters and flat indices are `Nat`; the kernel offsets `kx`, `ky`
  (`-offset_xy .. offset_xy`) are shifted to `0 .. 2*offset_xy`.
-/

namespace keymolen

/-! ## Constants -/

/-- Sobel kernel `Gx` (right column minus left column). -/
def Gx : List Int := [-1, 0, 1,
                      -2, 0, 2,
                      -1, 0, 1]

/-- Sobel kernel `Gy` (top row minus bottom row). -/
def Gy : List Int := [ 1,  2,  1,
                       0,  0,  0,
                      -1, -2, -1]

/-- Gaussian blur, 3 x 3 kernel. -/
def Gaus3x3 : List Nat := [1, 2, 1,
                           2, 4, 2,
                           1, 2, 1]

/-- Divisor of the 3 x 3 kernel. -/
def Gaus3x3Div : Nat := 16

/-- Gaussian blur, 5 x 5 kernel. -/
def Gaus5x5 : List Nat := [2,  4,  5,  4, 2,
                           4,  9, 12,  9, 4,
                           5, 12, 15, 12, 5,
                           4,  9, 12,  9, 4,
                           2,  4,  5,  4, 2]

/-- Divisor of the 5 x 5 kernel. -/
def Gaus5x5Div : Nat := 159

/-- The `Canny::NoiseFilter` enumeration. -/
inductive NoiseFilter where
  | Gaus3x3
  | Gaus5x5
  deriving DecidableEq, Repr

/-- The detector object: dimensions and the three scratch buffers. -/
structure Canny where
  w_ : Nat
  h_ : Nat
  size_ : Nat
  G_ : List Nat
  M_ : List Nat
  s_ : List Nat
  deriving DecidableEq, Repr

/-- The constructor `Canny::Canny(w, h)`: the three buffers come from `calloc`. -/
def Canny.new (w h : Nat) : Canny :=
  { w_ := w, h_ := h, size_ := w * h,
    G_ := List.replicate (w * h) 0,
    M_ := List.replicate (w * h) 0,
    s_ := List.replicate (w * h) 0 }

/-! ## Control flow -/

/-- The loop `for (int i = lo; i < hi; i++) s = body i s`. -/
def forLoop {σ : Type} (lo hi : Nat) (body : Nat → σ → σ) (s : σ) : σ :=
  (List.range' lo (hi - lo)).foldl (fun s i => body i s) s

/-- The nested pixel loops
`for (int x = x0; x < x1; x++) for (int y = y0; y < y1; y++) s = step x y s`. -/
def pixelLoop {σ : Type} (x0 x1 y0 y1 : Nat) (step : Nat → Nat → σ → σ) (s : σ) : σ :=
  forLoop x0 x1 (fun x s => forLoop y0 y1 (fun y s => step x y s) s) s

/-! ## Exact comparisons standing for the floating-point ones -/

/-- The comparison `m > t` of a magnitude cell (stored as its square `m2`) with
an integer threshold `t`. -/
def magGt (m2 : Nat) (t : Int) : Bool :=
  decide (t < 0 ∨ t * t < (m2 : Int))

/-- Sign test `a + b * sqrt 2 < 0` for integers `a`, `b`. -/
def sqrt2Neg (a b : Int) : Bool :=
  if 0 ≤ a ∧ 0 ≤ b then false
  else if a ≤ 0 ∧ b ≤ 0 then true
  else if a < 0 then decide (2 * b * b < a * a)
  else decide (a * a < 2 * b * b)

/-- The eight angles that `theta` is compared with, in degrees:
`p22` is 22.5, `p67` is 67.5, `p112` is 112.5, `p157` is 157.5 and `n22` .. `n157`
are their negatives. -/
inductive Bound where
  | p22 | p67 | p112 | p157 | n22 | n67 | n112 | n157
  deriving DecidableEq, Repr

/-- The direction of a bound as `((a, b), (c, d))`: a positive multiple of
`(cos, sin)` of the angle is `(a + b * sqrt 2, c + d * sqrt 2)`. -/
def Bound.dir : Bound → (Int × Int) × (Int × Int)
  | .p22 => ((1, 1), (1, 0))
  | .p67 => ((1, 0), (1, 1))
  | .p112 => ((-1, 0), (1, 1))
  | .p157 => ((-1, -1), (1, 0))
  | .n22 => ((1, 1), (-1, 0))
  | .n67 => ((1, 0), (-1, -1))
  | .n112 => ((-1, 0), (-1, -1))
  | .n157 => ((-1, -1), (-1, 0))

/-- Whether the bound is a positive angle. -/
def Bound.pos : Bound → Bool
  | .p22 | .p67 | .p112 | .p157 => true
  | _ => false

/-- The comparison `theta < b` where `theta = atan2 (cy, cx)` in degrees: the sign
of the cross product of the direction of `b` with `(cx, cy)`, within the half plane
of `b`. -/
def thetaLt (cx cy : Int) (b : Bound) : Bool :=
  let u := b.dir
  let cross := sqrt2Neg (u.1.1 * cy - u.2.1 * cx) (u.1.2 * cy - u.2.2 * cx)
  if b.pos then decide (cy < 0) || cross else decide (cy < 0) && cross

/-- The comparison `theta <= b`; no integer vector has `theta = b`. -/
def thetaLe (cx cy : Int) (b : Bound) : Bool := thetaLt cx cy b

/-- The comparison `theta >= b`. -/
def thetaGe (cx cy : Int) (b : Bound) : Bool := !thetaLt cx cy b

/-- The comparison `theta > b`. -/
def thetaGt (cx cy : Int) (b : Bound) : Bool := !thetaLe cx cy b

/-- The direction sector chosen by the bin tests of `Canny::edges` for
`theta = atan2 (convolve_Y, convolve_X)`; `0` is the `error` branch, which leaves
`segment` at its initial value. -/
def segment (convolve_X convolve_Y : Int) : Nat :=
  let le := thetaLe convolve_X convolve_Y
  let lt := thetaLt convolve_X convolve_Y
  let ge := thetaGe convolve_X convolve_Y
  let gt := thetaGt convolve_X convolve_Y
  if (le .p22 && ge .n22) || le .n157 || ge .p157 then 1
  else if (gt .p22 && le .p67) || (gt .n157 && le .n112) then 2
  else if (gt .p67 && le .p112) || (ge .n112 && lt .n67) then 3
  else if (ge .n67 && lt .n22) || (gt .p112 && lt .p157) then 4
  else 0

/-! ## The stages of `Canny::edges` -/

/-- The weighted sum and byte of one smoothed pixel: `kx` is the outer and `ky` the
inner kernel loop, `k` counts the kernel entries. -/
def gaussianPixel (w_ : Nat) (src : List Nat) (kernel : List Nat) (kernel_div offset_xy : Nat)
    (x y : Nat) : Nat :=
  let r := forLoop 0 (2 * offset_xy + 1) (fun i acc =>
    forLoop 0 (2 * offset_xy + 1) (fun j (acc : Nat × Nat) =>
      (acc.1 + src.getD ((x + i - offset_xy) + (y + j - offset_xy) * w_) 0 * kernel.getD acc.2 0,
       acc.2 + 1)) acc) (0, 0)
  (r.1 / kernel_div) % 256

/-- The stage `gaussian filter`. -/
def gaussianFilter (w_ h_ offset_xy : Nat) (kernel : List Nat) (kernel_div : Nat)
    (src dst : List Nat) : List Nat :=
  pixelLoop 0 w_ 0 h_ (fun x y dst =>
    let pos := x + y * w_
    if x < offset_xy ∨ w_ ≤ x + offset_xy ∨ y < offset_xy ∨ h_ ≤ y + offset_xy then
      dst.set pos (src.getD pos 0)
    else
      dst.set pos (gaussianPixel w_ src kernel kernel_div offset_xy x y)) dst

/-- The two Sobel sums `(convolve_X, convolve_Y)` of one pixel: `ky` is the outer and
`kx` the inner kernel loop. -/
def sobelConvolve (w_ : Nat) (dst : List Nat) (x y : Nat) : Int × Int :=
  let r := forLoop 0 3 (fun j acc =>
    forLoop 0 3 (fun i (acc : Int × Int × Nat) =>
      let v : Int := (dst.getD ((x + i - 1) + (y + j - 1) * w_) 0 : Nat)
      (acc.1 + v * Gx.getD acc.2.2 0, acc.2.1 + v * Gy.getD acc.2.2 0, acc.2.2 + 1)) acc)
    (0, 0, 0)
  (r.1, r.2.1)

/-- The stage `apply sobel kernels`: writes `G_` and `s_` at the interior pixels. -/
def sobel (w_ h_ : Nat) (dst : List Nat) (G s : List Nat) : List Nat × List Nat :=
  pixelLoop 1 (w_ - 1) 1 (h_ - 1) (fun x y st =>
    let src_pos := x + y * w_
    let c := sobelConvolve w_ dst x y
    if c.1 = 0 ∨ c.2 = 0 then
      (st.1.set src_pos 0, st.2.set src_pos 0)
    else
      (st.1.set src_pos (c.1 * c.1 + c.2 * c.2).toNat,
       st.2.set src_pos (segment c.1 c.2))) (G, s)

/-- The body of the suppression loop at the flat index `pos`. -/
def suppressStep (w_ : Nat) (G s : List Nat) (pos : Nat) (M : List Nat) : List Nat :=
  match s.getD pos 0 with
  | 1 =>
    if G.getD (pos - 1) 0 ≥ G.getD pos 0 ∨ G.getD (pos + 1) 0 > G.getD pos 0 then
      M.set pos 0 else M
  | 2 =>
    if G.getD (pos - (w_ - 1)) 0 ≥ G.getD pos 0 ∨ G.getD (pos + (w_ - 1)) 0 > G.getD pos 0 then
      M.set pos 0 else M
  | 3 =>
    if G.getD (pos - w_) 0 ≥ G.getD pos 0 ∨ G.getD (pos + w_) 0 > G.getD pos 0 then
      M.set pos 0 else M
  | 4 =>
    if G.getD (pos - (w_ + 1)) 0 ≥ G.getD pos 0 ∨ G.getD (pos + (w_ + 1)) 0 > G.getD pos 0 then
      M.set pos 0 else M
  | _ => M.set pos 0

/-- The stage `non maxima suppression`, started on `M` (the copy of `G_` made by `memcpy`). -/
def nonMaximaSuppression (w_ h_ : Nat) (G s : List Nat) (M : List Nat) : List Nat :=
  pixelLoop 1 (w_ - 1) 1 (h_ - 1) (fun x y M => suppressStep w_ G s (x + y * w_) M) M

/-- The value the double threshold writes for a magnitude cell. -/
def classify (m2 : Nat) (weak_threshold strong_threshold : Int) : Nat :=
  if magGt m2 strong_threshold then 255
  else if magGt m2 weak_threshold then 100
  else 0

/-- The stage `double threshold`. -/
def doubleThreshold (w_ h_ : Nat) (M : List Nat) (weak_threshold strong_threshold : Int)
    (dst : List Nat) : List Nat :=
  pixelLoop 0 w_ 0 h_ (fun x y dst =>
    let src_pos := x + y * w_
    dst.set src_pos (classify (M.getD src_pos 0) weak_threshold strong_threshold)) dst

/-- The value the hysteresis loop writes at the flat index `src_pos`. -/
def hysteresisValue (w_ : Nat) (src_pos : Nat) (dst : List Nat) : Nat :=
  if dst.getD src_pos 0 = 255 then 255
  else if dst.getD src_pos 0 = 100 then
    if dst.getD (src_pos - 1) 0 = 255 ∨ dst.getD (src_pos + 1) 0 = 255 ∨
       dst.getD (src_pos - 1 - w_) 0 = 255 ∨
       dst.getD (src_pos + 1 - w_) 0 = 255 ∨ dst.getD (src_pos + w_) 0 = 255 ∨
       dst.getD (src_pos + w_ - 1) 0 = 255 ∨
       dst.getD (src_pos + w_ + 1) 0 = 255 then
      255
    else 0
  else 0

/-- The stage `edges with hysteresis`, in place on `dst`. -/
def hysteresis (w_ h_ : Nat) (dst : List Nat) : List Nat :=
  pixelLoop 1 (w_ - 1) 1 (h_ - 1) (fun x y dst =>
    let src_pos := x + y * w_
    dst.set src_pos (hysteresisValue w_ src_pos dst)) dst

/-- The half width, kernel and divisor selected by `kernel_size`. -/
def kernelParams (kernel_size : NoiseFilter) : Nat × List Nat × Nat :=
  if kernel_size = NoiseFilter.Gaus5x5 then (2, Gaus5x5, Gaus5x5Div)
  else (1, Gaus3x3, Gaus3x3Div)

/-- The buffer `dst` of `Canny::edges` after the stage `gaussian filter`. -/
def Canny.smoothed (c : Canny) (dst src : List Nat) (kernel_size : NoiseFilter) : List Nat :=
  let p := kernelParams kernel_size
  gaussianFilter c.w_ c.h_ p.1 p.2.1 p.2.2 src dst

/-- The buffers `(G_, s_)` of `Canny::edges` after the stage `apply sobel kernels`. -/
def Canny.gradient (c : Canny) (dst src : List Nat) (kernel_size : NoiseFilter) :
    List Nat × List Nat :=
  sobel c.w_ c.h_ (c.smoothed dst src kernel_size) c.G_ c.s_

/-- The buffer `M_` of `Canny::edges` after the stage `non maxima suppression`. -/
def Canny.suppressed (c : Canny) (dst src : List Nat) (kernel_size : NoiseFilter) : List Nat :=
  let Gs := c.gradient dst src kernel_size
  nonMaximaSuppression c.w_ c.h_ Gs.1 Gs.2 Gs.1

/-- The buffer `dst` of `Canny::edges` after the stage `double threshold`. -/
def Canny.thresholded (c : Canny) (dst src : List Nat) (kernel_size : NoiseFilter)
    (weak_threshold strong_threshold : Int) : List Nat :=
  doubleThreshold c.w_ c.h_ (c.suppressed dst src kernel_size) weak_threshold strong_threshold
    (c.smoothed dst src kernel_size)

/-- The method `Canny::edges`: the returned buffer and the detector after the call. -/
def Canny.edges (c : Canny) (dst src : List Nat) (kernel_size : NoiseFilter)
    (weak_threshold strong_threshold : Int) : List Nat × Canny :=
  (hysteresis c.w_ c.h_ (c.thresholded dst src kernel_size weak_threshold strong_threshold),
   { c with G_ := (c.gradient dst src kernel_size).1,
            M_ := c.suppressed dst src kernel_size,
            s_ := (c.gradient dst src kernel_size).2 })

/-! ## Auxiliary notions for the proofs -/

/-- A loop body that writes at most the cell `x + y * w` of the buffer. -/
def WritesOwnCell (w : Nat) (step : Nat → Nat → List Nat → List Nat) : Prop :=
  ∀ x y d, (step x y d).length = d.length ∧
    ∀ i, i ≠ x + y * w → (step x y d).getD i 0 = d.getD i 0

/-- The buffer at the moment the pixel loop reaches `(x, y)`: the columns `x0 .. x - 1`
are done and so are the rows `y0 .. y - 1` of column `x`. -/
def stateAt (x0 y0 y1 : Nat) (step : Nat → Nat → List Nat → List Nat) (x y : Nat)
    (s : List Nat) : List Nat :=
  forLoop y0 y (fun y s => step x y s) (pixelLoop x0 x y0 y1 step s)

/-- The byte the stage `gaussian filter` stores for the pixel `(x, y)`. -/
def gaussianValue (w_ h_ offset_xy : Nat) (kernel : List Nat) (kernel_div : Nat)
    (src : List Nat) (x y : Nat) : Nat :=
  if x < offset_xy ∨ w_ ≤ x + offset_xy ∨ y < offset_xy ∨ h_ ≤ y + offset_xy then
    src.getD (x + y * w_) 0
  else gaussianPixel w_ src kernel kernel_div offset_xy x y

/-- The magnitude cell the stage `apply sobel kernels` stores for the pixel `(x, y)`. -/
def sobelMagnitude (w_ : Nat) (dst : List Nat) (x y : Nat) : Nat :=
  if (sobelConvolve w_ dst x y).1 = 0 ∨ (sobelConvolve w_ dst x y).2 = 0 then 0
  else ((sobelConvolve w_ dst x y).1 * (sobelConvolve w_ dst x y).1 +
    (sobelConvolve w_ dst x y).2 * (sobelConvolve w_ dst x y).2).toNat

/-- The sector the stage `apply sobel kernels` stores for the pixel `(x, y)`. -/
def sobelSector (w_ : Nat) (dst : List Nat) (x y : Nat) : Nat :=
  if (sobelConvolve w_ dst x y).1 = 0 ∨ (sobelConvolve w_ dst x y).2 = 0 then 0
  else segment (sobelConvolve w_ dst x y).1 (sobelConvolve w_ dst x y).2

/-- The buffer `dst` at the moment the hysteresis loop reaches the pixel `(x, y)`. -/
def hysteresisAt (w_ h_ : Nat) (dst : List Nat) (x y : Nat) : List Nat :=
  stateAt 1 1 (h_ - 1)
    (fun x y dst => dst.set (x + y * w_) (hysteresisValue w_ (x + y * w_) dst)) x y dst

/-! ## Concrete images -/

/-- A 3 x 4 image (rows of 3): two bright pixels at the top of column 0. -/
def cornerImage : List Nat :=
  [255, 0, 0,
   255, 0, 0,
     0, 0, 0,
     0, 0, 0]

/-- A 5 x 3 image (rows of 5): two bright pixels in the top row. -/
def chainImage : List Nat :=
  [0, 255, 0, 0, 255,
   0,   0, 0, 0,   0,
   0,   0, 0, 0,   0]

/-- The 7 x 7 image that is 0 everywhere except column 3, which is 255. -/
def stepImage : List Nat :=
  [0, 0, 0, 255, 0, 0, 0,
   0, 0, 0, 255, 0, 0, 0,
   0, 0, 0, 255, 0, 0, 0,
   0, 0, 0, 255, 0, 0, 0,
   0, 0, 0, 255, 0, 0, 0,
   0, 0, 0, 255, 0, 0, 0,
   0, 0, 0, 255, 0, 0, 0]

/-! ## Auxiliary notions for the later stages -/

/-- Whether the suppression loop zeroes the cell `pos`: the test of the `switch` on
`s_[pos]`. -/
def suppressZero (w_ : Nat) (G s : List Nat) (pos : Nat) : Bool :=
  match s.getD pos 0 with
  | 1 => decide (G.getD (pos - 1) 0 ≥ G.getD pos 0 ∨ G.getD (pos + 1) 0 > G.getD pos 0)
  | 2 => decide (G.getD (pos - (w_ - 1)) 0 ≥ G.getD pos 0 ∨
      G.getD (pos + (w_ - 1)) 0 > G.getD pos 0)
  | 3 => decide (G.getD (pos - w_) 0 ≥ G.getD pos 0 ∨ G.getD (pos + w_) 0 > G.getD pos 0)
  | 4 => decide (G.getD (pos - (w_ + 1)) 0 ≥ G.getD pos 0 ∨
      G.getD (pos + (w_ + 1)) 0 > G.getD pos 0)
  | _ => true

/-- The pixel `(x, y)` of an image stored in rows of `w_` bytes. -/
def pixelAt (w_ : Nat) (img : List Nat) (x y : Nat) : Int :=
  ((img.getD (x + y * w_) 0 : Nat) : Int)

/-- The `dx` of the gradient claim, as the claim words it: the right column minus the left
column of the 3 x 3 neighbourhood of `(x, y)`, each column weighted 1, 2, 1. -/
def specDx (w_ : Nat) (img : List Nat) (x y : Nat) : Int :=
  (pixelAt w_ img (x + 1) (y - 1) + 2 * pixelAt w_ img (x + 1) y
      + pixelAt w_ img (x + 1) (y + 1))
    - (pixelAt w_ img (x - 1) (y - 1) + 2 * pixelAt w_ img (x - 1) y
      + pixelAt w_ img (x - 1) (y + 1))

/-- The `dy` of the gradient claim, as the claim words it: the top row minus the bottom
row of the 3 x 3 neighbourhood of `(x, y)`, each row weighted 1, 2, 1. -/
def specDy (w_ : Nat) (img : List Nat) (x y : Nat) : Int :=
  (pixelAt w_ img (x - 1) (y - 1) + 2 * pixelAt w_ img x (y - 1)
      + pixelAt w_ img (x + 1) (y - 1))
    - (pixelAt w_ img (x - 1) (y + 1) + 2 * pixelAt w_ img x (y + 1)
      + pixelAt w_ img (x + 1) (y + 1))

/-- The weighted sum of the smoothing claim, as the claim words it: the sum over the
neighbourhood of `kernel[row ky][column kx] * src[x + kx, y + ky]` with the kernel read
row-major; `j` is `ky + offset_xy` and `i` is `kx + offset_xy`. -/
def specSmoothSum (w_ : Nat) (src kernel : List Nat) (offset_xy x y : Nat) : Nat :=
  ((List.range (2 * offset_xy + 1)).map (fun j =>
    ((List.range (2 * offset_xy + 1)).map (fun i =>
      kernel.getD (j * (2 * offset_xy + 1) + i) 0
        * src.getD ((x + i - offset_xy) + (y + j - offset_xy) * w_) 0)).sum)).sum

/-- The bin tests of `Canny::edges` applied to an angle `theta` in degrees: the
`if ... else if` chain of the source; `0` is the `error` branch. -/
def segmentOfTheta (theta : ℚ) : Nat :=
  if (theta ≤ 22.5 ∧ theta ≥ -22.5) ∨ theta ≤ -157.5 ∨ theta ≥ 157.5 then 1
  else if (theta > 22.5 ∧ theta ≤ 67.5) ∨ (theta > -157.5 ∧ theta ≤ -112.5) then 2
  else if (theta > 67.5 ∧ theta ≤ 112.5) ∨ (theta ≥ -112.5 ∧ theta < -67.5) then 3
  else if (theta ≥ -67.5 ∧ theta < -22.5) ∨ (theta > 112.5 ∧ theta < 157.5) then 4
  else 0

/-! ## The flat indices used by `Canny::edges`

Every buffer has `w_ * h_` cells. The lists below collect, in program order and as C
`int` values, the index expressions of the source; a list may name an index that a run
skips (a neighbour that a `switch` case or a short-circuit `||` does not read). -/

/-- A 3 x 3 detector whose border cell `G_[0]` holds a stale magnitude. -/
def staleBorderDetector : Canny :=
  { w_ := 3, h_ := 3, size_ := 9,
    G_ := [90000, 0, 0, 0, 0, 0, 0, 0, 0],
    M_ := [0, 0, 0, 0, 0, 0, 0, 0, 0],
    s_ := [0, 0, 0, 0, 0, 0, 0, 0, 0] }

/-- A 3 x 3 detector whose `M_`, `s_` and interior cell of `G_` hold stale values. -/
def staleInteriorDetector : Canny :=
  { w_ := 3, h_ := 3, size_ := 9,
    G_ := [0, 0, 0, 0, 5, 0, 0, 0, 0],
    M_ := [1, 2, 3],
    s_ := [4, 4, 4, 4, 4, 4, 4, 4, 4] }

/-! ## Sequences of calls -/

/-- The arguments of one call of `Canny::edges`. -/
structure Call where
  dst : List Nat
  src : List Nat
  kernel_size : NoiseFilter
  weak_threshold : Int
  strong_threshold : Int

/-- The detector after a sequence of calls of `Canny::edges`. -/
def Canny.after (c : Canny) (calls : List Call) : Canny :=
  calls.foldl (fun c a =>
    (c.edges a.dst a.src a.kernel_size a.weak_threshold a.strong_threshold).2) c

/-! ## Paths in the edge map -/

/-- Two distinct pixels that differ by at most 1 in each coordinate. -/
def Adjacent8 (p q : Nat × Nat) : Prop :=
  p ≠ q ∧ p.1 ≤ q.1 + 1 ∧ q.1 ≤ p.1 + 1 ∧ p.2 ≤ q.2 + 1 ∧ q.2 ≤ p.2 + 1

/-- One step of a path in the map `out`: from `p` to an 8-adjacent pixel `q` of the grid
that is 255 in `out`. -/
def EdgeStep (w_ h_ : Nat) (out : List Nat) (p q : Nat × Nat) : Prop :=
  Adjacent8 p q ∧ q.1 < w_ ∧ q.2 < h_ ∧ out.getD (q.1 + q.2 * w_) 0 = 255

/-! # Theorems -/

/-! ## Loops -/

theorem forLoop_of_le {σ : Type} {lo hi : Nat} (body : Nat → σ → σ) (s : σ) (h : hi ≤ lo) :
    forLoop lo hi body s = s := by
  have h0 : hi - lo = 0 := by omega
  simp [forLoop, h0]

theorem forLoop_split {σ : Type} {lo m hi : Nat} (body : Nat → σ → σ) (s : σ)
    (h1 : lo ≤ m) (h2 : m ≤ hi) :
    forLoop lo hi body s = forLoop m hi body (forLoop lo m body s) := by
  unfold forLoop
  have hlen : hi - lo = (hi - m) + (m - lo) := by omega
  have hm : lo + (m - lo) = m := by omega
  have happ := List.range'_append_1 lo (m - lo) (hi - m)
  rw [hm] at happ
  rw [hlen, ← happ, List.foldl_append]

theorem forLoop_single {σ : Type} (i : Nat) (body : Nat → σ → σ) (s : σ) :
    forLoop i (i + 1) body s = body i s := by
  simp [forLoop]

theorem forLoop_step_right {σ : Type} {lo hi : Nat} (body : Nat → σ → σ) (s : σ)
    (h : lo ≤ hi) : forLoop lo (hi + 1) body s = body hi (forLoop lo hi body s) := by
  rw [forLoop_split body s h (Nat.le_succ hi), forLoop_single]

theorem forLoop_step_left {σ : Type} {lo hi : Nat} (body : Nat → σ → σ) (s : σ)
    (h : lo < hi) : forLoop lo hi body s = forLoop (lo + 1) hi body (body lo s) := by
  rw [forLoop_split body s (Nat.le_succ lo) h, forLoop_single]

/-- Invariant rule for `forLoop`. -/
theorem forLoop_invariant {σ : Type} (Inv : σ → Prop) (lo hi : Nat) (body : Nat → σ → σ)
    (s : σ) (h0 : Inv s)
    (hstep : ∀ i t, lo ≤ i → i < hi → Inv t → Inv (body i t)) :
    Inv (forLoop lo hi body s) := by
  by_cases hle : lo ≤ hi
  · obtain ⟨n, rfl⟩ : ∃ n, hi = lo + n := ⟨hi - lo, by omega⟩
    clear hle
    induction n with
    | zero => simpa [forLoop_of_le body s (le_refl lo)] using h0
    | succ n ih =>
      have e : lo + (n + 1) = (lo + n) + 1 := by omega
      rw [e, forLoop_step_right body s (by omega)]
      apply hstep _ _ (by omega) (by omega)
      exact ih (fun i t h1 h2 ht => hstep i t h1 (by omega) ht)
  · rw [forLoop_of_le body s (by omega)]
    exact h0

/-- Invariant rule for the nested pixel loops. -/
theorem pixelLoop_invariant {σ : Type} (Inv : σ → Prop) (x0 x1 y0 y1 : Nat)
    (step : Nat → Nat → σ → σ) (s : σ) (h0 : Inv s)
    (hstep : ∀ x y t, x0 ≤ x → x < x1 → y0 ≤ y → y < y1 → Inv t → Inv (step x y t)) :
    Inv (pixelLoop x0 x1 y0 y1 step s) := by
  unfold pixelLoop
  apply forLoop_invariant Inv _ _ _ _ h0
  intro x t hx0 hx1 ht
  apply forLoop_invariant Inv _ _ _ _ ht
  intro y t' hy0 hy1 ht'
  exact hstep x y t' hx0 hx1 hy0 hy1 ht'

/-- A pixel loop whose every step leaves `s` unchanged returns `s`. -/
theorem pixelLoop_fixed {σ : Type} (x0 x1 y0 y1 : Nat) (step : Nat → Nat → σ → σ) (s : σ)
    (hfix : ∀ x y, x0 ≤ x → x < x1 → y0 ≤ y → y < y1 → step x y s = s) :
    pixelLoop x0 x1 y0 y1 step s = s := by
  apply pixelLoop_invariant (fun t => t = s) _ _ _ _ _ _ rfl
  intro x y t hx0 hx1 hy0 hy1 ht
  rw [ht]
  exact hfix x y hx0 hx1 hy0 hy1

/-- A pixel loop on a pair of buffers whose step treats them separately is a pair of
pixel loops. -/
theorem pixelLoop_pair {α β : Type} (x0 x1 y0 y1 : Nat) (f : Nat → Nat → α → α)
    (g : Nat → Nat → β → β) (a : α) (b : β) :
    pixelLoop x0 x1 y0 y1 (fun x y (st : α × β) => (f x y st.1, g x y st.2)) (a, b)
      = (pixelLoop x0 x1 y0 y1 f a, pixelLoop x0 x1 y0 y1 g b) := by
  have key : ∀ (l : List Nat) (F : Nat → α → α) (G : Nat → β → β) (a : α) (b : β),
      l.foldl (fun (st : α × β) i => (F i st.1, G i st.2)) (a, b)
        = (l.foldl (fun s i => F i s) a, l.foldl (fun s i => G i s) b) := by
    intro l F G
    induction l with
    | nil => intro a b; rfl
    | cons i l ih => intro a b; simp only [List.foldl_cons]; exact ih _ _
  unfold pixelLoop forLoop
  have inner : ∀ (x : Nat) (st : α × β),
      (List.range' y0 (y1 - y0)).foldl (fun (st : α × β) y => (f x y st.1, g x y st.2)) st
        = ((List.range' y0 (y1 - y0)).foldl (fun s y => f x y s) st.1,
           (List.range' y0 (y1 - y0)).foldl (fun s y => g x y s) st.2) := by
    intro x st
    exact key _ (f x) (g x) st.1 st.2
  simp only [inner]
  exact key _ (fun x s => (List.range' y0 (y1 - y0)).foldl (fun s y => f x y s) s)
    (fun x s => (List.range' y0 (y1 - y0)).foldl (fun s y => g x y s) s) a b

/-! ## Flat indices -/

theorem idx_lt {w h x y : Nat} (hx : x < w) (hy : y < h) : x + y * w < w * h := by
  calc x + y * w < w + y * w := by omega
    _ = (y + 1) * w := by ring
    _ ≤ h * w := Nat.mul_le_mul_right w hy
    _ = w * h := Nat.mul_comm h w

theorem idx_inj {w x y x' y' : Nat} (hx : x < w) (hx' : x' < w)
    (h : x + y * w = x' + y' * w) : x = x' ∧ y = y' := by
  have hw : 0 < w := by omega
  have h1 : (x + y * w) % w = x := by
    rw [Nat.add_mul_mod_self_right, Nat.mod_eq_of_lt hx]
  have h2 : (x' + y' * w) % w = x' := by
    rw [Nat.add_mul_mod_self_right, Nat.mod_eq_of_lt hx']
  have h3 : (x + y * w) / w = y := by
    rw [Nat.add_mul_div_right _ _ hw, Nat.div_eq_of_lt hx, Nat.zero_add]
  have h4 : (x' + y' * w) / w = y' := by
    rw [Nat.add_mul_div_right _ _ hw, Nat.div_eq_of_lt hx', Nat.zero_add]
  rw [h] at h1 h3
  exact ⟨by omega, by omega⟩

theorem idx_cover {w h i : Nat} (hi : i < w * h) :
    ∃ x y, x < w ∧ y < h ∧ i = x + y * w := by
  have hw : 0 < w := by
    rcases Nat.eq_zero_or_pos w with h0 | h0
    · simp [h0] at hi
    · exact h0
  refine ⟨i % w, i / w, Nat.mod_lt _ hw, ?_, ?_⟩
  · exact (Nat.div_lt_iff_lt_mul hw).2 (by rwa [Nat.mul_comm] at hi)
  · have := Nat.mod_add_div i w
    rw [Nat.mul_comm] at this
    omega

/-! ## Buffers -/

theorem getD_set_eq (d : List Nat) {i : Nat} (v : Nat) (h : i < d.length) :
    (d.set i v).getD i 0 = v := by
  simp [List.getD_eq_getElem?_getD, List.getElem?_set_self h]

theorem getD_set_ne (d : List Nat) {i j : Nat} (v : Nat) (h : j ≠ i) :
    (d.set i v).getD j 0 = d.getD j 0 := by
  simp [List.getD_eq_getElem?_getD, List.getElem?_set_ne (Ne.symm h)]

theorem getD_of_length_le (d : List Nat) {i : Nat} (h : d.length ≤ i) : d.getD i 0 = 0 := by
  simp [List.getD_eq_getElem?_getD, List.getElem?_eq_none h]

theorem ext_getD {l1 l2 : List Nat} (hlen : l1.length = l2.length)
    (h : ∀ i, i < l1.length → l1.getD i 0 = l2.getD i 0) : l1 = l2 := by
  apply List.ext_getElem hlen
  intro i h1 h2
  have := h i h1
  simpa [List.getD_eq_getElem?_getD, List.getElem?_eq_getElem h1,
    List.getElem?_eq_getElem h2] using this

theorem getD_replicate_lt {n i : Nat} (c : Nat) (h : i < n) :
    (List.replicate n c).getD i 0 = c := by
  simp [List.getD_eq_getElem?_getD, List.getElem?_replicate, h]

theorem writesOwnCell_set (w : Nat) (val : Nat → Nat → List Nat → Nat) :
    WritesOwnCell w (fun x y d => d.set (x + y * w) (val x y d)) := by
  intro x y d
  exact ⟨by simp, fun i hi => getD_set_ne d _ hi⟩


/-! ## Pixel loops that write one cell per step -/

theorem forLoop_col_length {w : Nat} {step : Nat → Nat → List Nat → List Nat}
    (hl : WritesOwnCell w step) (x y0 y1 : Nat) (s : List Nat) :
    (forLoop y0 y1 (fun y s => step x y s) s).length = s.length := by
  apply forLoop_invariant (fun (t : List Nat) => t.length = s.length) _ _ _ _ rfl
  intro y t _ _ ht
  rw [(hl x y t).1, ht]

theorem pixelLoop_length {w : Nat} {step : Nat → Nat → List Nat → List Nat}
    (hl : WritesOwnCell w step) (x0 x1 y0 y1 : Nat) (s : List Nat) :
    (pixelLoop x0 x1 y0 y1 step s).length = s.length := by
  apply pixelLoop_invariant (fun (t : List Nat) => t.length = s.length) _ _ _ _ _ _ rfl
  intro x y t _ _ _ _ ht
  rw [(hl x y t).1, ht]

theorem forLoop_col_frame {w : Nat} {step : Nat → Nat → List Nat → List Nat}
    (hl : WritesOwnCell w step) (x y0 y1 : Nat) (s : List Nat) (i : Nat)
    (hne : ∀ y, y0 ≤ y → y < y1 → i ≠ x + y * w) :
    (forLoop y0 y1 (fun y s => step x y s) s).getD i 0 = s.getD i 0 := by
  apply forLoop_invariant (fun (t : List Nat) => t.getD i 0 = s.getD i 0) _ _ _ _ rfl
  intro y t hy0 hy1 ht
  rw [(hl x y t).2 i (hne y hy0 hy1), ht]

theorem pixelLoop_frame {w : Nat} {step : Nat → Nat → List Nat → List Nat}
    (hl : WritesOwnCell w step) (x0 x1 y0 y1 : Nat) (s : List Nat) (i : Nat)
    (hne : ∀ x y, x0 ≤ x → x < x1 → y0 ≤ y → y < y1 → i ≠ x + y * w) :
    (pixelLoop x0 x1 y0 y1 step s).getD i 0 = s.getD i 0 := by
  apply pixelLoop_invariant (fun (t : List Nat) => t.getD i 0 = s.getD i 0) _ _ _ _ _ _ rfl
  intro x y t hx0 hx1 hy0 hy1 ht
  rw [(hl x y t).2 i (hne x y hx0 hx1 hy0 hy1), ht]

/-- The value a pixel has after the loop is the one its own step wrote. -/
theorem pixelLoop_visit {w : Nat} {step : Nat → Nat → List Nat → List Nat}
    (hl : WritesOwnCell w step) {x0 x1 y0 y1 x y : Nat} (s : List Nat)
    (hx0 : x0 ≤ x) (hx1 : x < x1) (hw : x1 ≤ w) (hy0 : y0 ≤ y) (hy1 : y < y1) :
    (pixelLoop x0 x1 y0 y1 step s).getD (x + y * w) 0
      = (step x y (stateAt x0 y0 y1 step x y s)).getD (x + y * w) 0 := by
  have e1 : pixelLoop x0 x1 y0 y1 step s
      = pixelLoop (x + 1) x1 y0 y1 step
          (forLoop (y + 1) y1 (fun y s => step x y s)
            (step x y (stateAt x0 y0 y1 step x y s))) := by
    unfold stateAt pixelLoop
    rw [forLoop_split _ s (show x0 ≤ x + 1 by omega) (show x + 1 ≤ x1 by omega),
      forLoop_step_right _ s hx0]
    congr 1
    rw [forLoop_split _ _ (show y0 ≤ y + 1 by omega) (show y + 1 ≤ y1 by omega),
      forLoop_step_right _ _ hy0]
  rw [e1, pixelLoop_frame hl, forLoop_col_frame hl]
  · intro y' h1 _ h
    have := (idx_inj (show x < w by omega) (show x < w by omega) h).2
    omega
  · intro x' y' h1 h2 _ _ h
    have := (idx_inj (show x < w by omega) (show x' < w by omega) h).1
    omega

theorem stateAt_length {w : Nat} {step : Nat → Nat → List Nat → List Nat}
    (hl : WritesOwnCell w step) (x0 y0 y1 x y : Nat) (s : List Nat) :
    (stateAt x0 y0 y1 step x y s).length = s.length := by
  unfold stateAt
  rw [forLoop_col_length hl, pixelLoop_length hl]

/-- Cells of pixels not yet reached still hold their initial value. -/
theorem stateAt_frame {w : Nat} {step : Nat → Nat → List Nat → List Nat}
    (hl : WritesOwnCell w step) (x0 y0 y1 x y : Nat) (s : List Nat) (i : Nat)
    (hrect : ∀ x' y', x0 ≤ x' → x' < x → y0 ≤ y' → y' < y1 → i ≠ x' + y' * w)
    (hcol : ∀ y', y0 ≤ y' → y' < y → i ≠ x + y' * w) :
    (stateAt x0 y0 y1 step x y s).getD i 0 = s.getD i 0 := by
  unfold stateAt
  rw [forLoop_col_frame hl _ _ _ _ _ hcol, pixelLoop_frame hl _ _ _ _ _ _ hrect]

/-- Cells outside the current column hold what the finished columns left there. -/
theorem stateAt_left {w : Nat} {step : Nat → Nat → List Nat → List Nat}
    (hl : WritesOwnCell w step) (x0 y0 y1 x y : Nat) (s : List Nat) (i : Nat)
    (hcol : ∀ y', y0 ≤ y' → y' < y → i ≠ x + y' * w) :
    (stateAt x0 y0 y1 step x y s).getD i 0 = (pixelLoop x0 x y0 y1 step s).getD i 0 := by
  unfold stateAt
  rw [forLoop_col_frame hl _ _ _ _ _ hcol]

/-- The own cell of the pixel being visited still holds its initial value. -/
theorem stateAt_self {w : Nat} {step : Nat → Nat → List Nat → List Nat}
    (hl : WritesOwnCell w step) (x0 y0 y1 : Nat) {x y : Nat} (s : List Nat) (hx : x < w) :
    (stateAt x0 y0 y1 step x y s).getD (x + y * w) 0 = s.getD (x + y * w) 0 := by
  apply stateAt_frame hl
  · intro x' y' _ h2 _ _ h
    have := (idx_inj hx (show x' < w by omega) h).1
    omega
  · intro y' _ h2 h
    have := (idx_inj hx hx h).2
    omega

/-- A loop that stores state-independent values: the cell of a visited pixel holds the
value stored for it. -/
theorem pixelLoop_set_getD {w : Nat} (val : Nat → Nat → Nat) {x0 x1 y0 y1 x y : Nat}
    (s : List Nat) (hx0 : x0 ≤ x) (hx1 : x < x1) (hw : x1 ≤ w) (hy0 : y0 ≤ y) (hy1 : y < y1)
    (hlen : x + y * w < s.length) :
    (pixelLoop x0 x1 y0 y1 (fun x y d => d.set (x + y * w) (val x y)) s).getD (x + y * w) 0
      = val x y := by
  have hl : WritesOwnCell w (fun x y d => d.set (x + y * w) (val x y)) :=
    writesOwnCell_set w (fun x y _ => val x y)
  rw [pixelLoop_visit hl s hx0 hx1 hw hy0 hy1]
  apply getD_set_eq
  rw [stateAt_length hl]
  exact hlen

/-- A loop that stores state-independent values does not depend on the initial
contents of the cells it visits. -/
theorem pixelLoop_set_congr {w : Nat} (val : Nat → Nat → Nat) {x0 x1 y0 y1 : Nat}
    (s t : List Nat) (hw : x1 ≤ w) (hlen : s.length = t.length)
    (hst : ∀ i, (∀ x y, x0 ≤ x → x < x1 → y0 ≤ y → y < y1 → i ≠ x + y * w) →
      s.getD i 0 = t.getD i 0) :
    pixelLoop x0 x1 y0 y1 (fun x y d => d.set (x + y * w) (val x y)) s
      = pixelLoop x0 x1 y0 y1 (fun x y d => d.set (x + y * w) (val x y)) t := by
  have hl : WritesOwnCell w (fun x y d => d.set (x + y * w) (val x y)) :=
    writesOwnCell_set w (fun x y _ => val x y)
  apply ext_getD
  · rw [pixelLoop_length hl, pixelLoop_length hl, hlen]
  · intro i hi
    rw [pixelLoop_length hl] at hi
    by_cases hv : ∃ x y, x0 ≤ x ∧ x < x1 ∧ y0 ≤ y ∧ y < y1 ∧ i = x + y * w
    · obtain ⟨x, y, hx0, hx1, hy0, hy1, rfl⟩ := hv
      rw [pixelLoop_set_getD val s hx0 hx1 hw hy0 hy1 hi,
        pixelLoop_set_getD val t hx0 hx1 hw hy0 hy1 (hlen ▸ hi)]
    · have hne : ∀ x y, x0 ≤ x → x < x1 → y0 ≤ y → y < y1 → i ≠ x + y * w := by
        intro x y h1 h2 h3 h4 h5
        exact hv ⟨x, y, h1, h2, h3, h4, h5⟩
      rw [pixelLoop_frame hl _ _ _ _ _ _ hne, pixelLoop_frame hl _ _ _ _ _ _ hne]
      exact hst i hne

/-- A loop that stores state-independent values can be run again on its own result
without changing it. -/
theorem pixelLoop_set_idem {w : Nat} (val : Nat → Nat → Nat) {x0 x1 y0 y1 : Nat}
    (s : List Nat) (hw : x1 ≤ w) :
    pixelLoop x0 x1 y0 y1 (fun x y d => d.set (x + y * w) (val x y))
        (pixelLoop x0 x1 y0 y1 (fun x y d => d.set (x + y * w) (val x y)) s)
      = pixelLoop x0 x1 y0 y1 (fun x y d => d.set (x + y * w) (val x y)) s := by
  have hl : WritesOwnCell w (fun x y d => d.set (x + y * w) (val x y)) :=
    writesOwnCell_set w (fun x y _ => val x y)
  apply pixelLoop_set_congr val _ _ hw (pixelLoop_length hl _ _ _ _ _)
  intro i hne
  exact pixelLoop_frame hl _ _ _ _ _ _ hne


/-! ## Double threshold -/

/-- The encoding of `cell > t`: on a cell stored as the square `m2` it is the comparison
of the real square root with `t`. -/
theorem magGt_iff_sqrt (m2 : Nat) (t : Int) :
    magGt m2 t = true ↔ (t : ℝ) < Real.sqrt (m2 : ℝ) := by
  unfold magGt
  rw [decide_eq_true_eq]
  by_cases ht : t < 0
  · have h1 : (t : ℝ) < 0 := by exact_mod_cast ht
    have h2 : (0 : ℝ) ≤ Real.sqrt (m2 : ℝ) := Real.sqrt_nonneg _
    constructor
    · intro _; linarith
    · intro _; exact Or.inl ht
  · have h0 : (0 : ℝ) ≤ (t : ℝ) := by exact_mod_cast (not_lt.mp ht)
    rw [Real.lt_sqrt h0]
    constructor
    · intro h
      rcases h with h | h
      · exact absurd h ht
      · have : ((t * t : Int) : ℝ) < ((m2 : Int) : ℝ) := by exact_mod_cast h
        push_cast at this
        nlinarith [this]
    · intro h
      right
      have : ((t * t : Int) : ℝ) < ((m2 : Int) : ℝ) := by
        push_cast
        nlinarith [h]
      exact_mod_cast this

theorem classify_cases (m2 : Nat) (weak strong : Int) :
    classify m2 weak strong = 0 ∨ classify m2 weak strong = 100 ∨
      classify m2 weak strong = 255 := by
  unfold classify
  split
  · simp
  · split <;> simp

theorem classify_eq_255 (m2 : Nat) (weak strong : Int) :
    classify m2 weak strong = 255 ↔ magGt m2 strong = true := by
  unfold classify
  split
  · simp [*]
  · split <;> simp [*]

theorem classify_eq_100 (m2 : Nat) (weak strong : Int) :
    classify m2 weak strong = 100 ↔ magGt m2 weak = true ∧ ¬ magGt m2 strong = true := by
  unfold classify
  split
  · simp [*]
  · split <;> simp [*]

theorem doubleThreshold_length (w h : Nat) (M : List Nat) (weak strong : Int)
    (dst : List Nat) : (doubleThreshold w h M weak strong dst).length = dst.length :=
  pixelLoop_length (writesOwnCell_set w _) _ _ _ _ _

theorem doubleThreshold_getD (w h : Nat) (M : List Nat) (weak strong : Int) (dst : List Nat)
    {x y : Nat} (hx : x < w) (hy : y < h) (hlen : dst.length = w * h) :
    (doubleThreshold w h M weak strong dst).getD (x + y * w) 0
      = classify (M.getD (x + y * w) 0) weak strong := by
  unfold doubleThreshold
  exact pixelLoop_set_getD (fun x y => classify (M.getD (x + y * w) 0) weak strong) dst
    (Nat.zero_le x) hx (le_refl w) (Nat.zero_le y) hy (hlen ▸ idx_lt hx hy)

/-! ## Gaussian filter -/

theorem kernelParams_Gaus3x3 : kernelParams NoiseFilter.Gaus3x3 = (1, Gaus3x3, Gaus3x3Div) := rfl

theorem kernelParams_Gaus5x5 : kernelParams NoiseFilter.Gaus5x5 = (2, Gaus5x5, Gaus5x5Div) := rfl

theorem gaussianFilter_eq (w h off : Nat) (kernel : List Nat) (div : Nat) (src dst : List Nat) :
    gaussianFilter w h off kernel div src dst
      = pixelLoop 0 w 0 h
          (fun x y d => d.set (x + y * w) (gaussianValue w h off kernel div src x y)) dst := by
  unfold gaussianFilter gaussianValue
  congr 1
  funext x y d
  by_cases hb : x < off ∨ w ≤ x + off ∨ y < off ∨ h ≤ y + off
  · simp only [if_pos hb]
  · simp only [if_neg hb]

theorem gaussianFilter_length (w h off : Nat) (kernel : List Nat) (div : Nat)
    (src dst : List Nat) : (gaussianFilter w h off kernel div src dst).length = dst.length := by
  rw [gaussianFilter_eq]
  exact pixelLoop_length (writesOwnCell_set w _) _ _ _ _ _

theorem gaussianFilter_getD (w h off : Nat) (kernel : List Nat) (div : Nat) (src dst : List Nat)
    {x y : Nat} (hx : x < w) (hy : y < h) (hlen : dst.length = w * h) :
    (gaussianFilter w h off kernel div src dst).getD (x + y * w) 0
      = gaussianValue w h off kernel div src x y := by
  rw [gaussianFilter_eq]
  exact pixelLoop_set_getD (fun x y => gaussianValue w h off kernel div src x y) dst
    (Nat.zero_le x) hx (le_refl w) (Nat.zero_le y) hy (hlen ▸ idx_lt hx hy)

/-- The smoothed buffer does not depend on what `dst` held before. -/
theorem gaussianFilter_congr (w h off : Nat) (kernel : List Nat) (div : Nat)
    (src dst dst' : List Nat) (hlen : dst.length = w * h) (hlen' : dst'.length = w * h) :
    gaussianFilter w h off kernel div src dst = gaussianFilter w h off kernel div src dst' := by
  rw [gaussianFilter_eq, gaussianFilter_eq]
  apply pixelLoop_set_congr _ _ _ (le_refl w) (by rw [hlen, hlen'])
  intro i hne
  by_cases hi : i < w * h
  · obtain ⟨x, y, hx, hy, rfl⟩ := idx_cover hi
    exact absurd rfl (hne x y (Nat.zero_le x) hx (Nat.zero_le y) hy)
  · rw [getD_of_length_le dst (by omega), getD_of_length_le dst' (by omega)]

theorem gaussianPixel_const (w h c x y : Nat) (k : NoiseFilter) (hc : c < 256)
    (hx1 : (kernelParams k).1 ≤ x) (hx2 : x + (kernelParams k).1 < w)
    (hy1 : (kernelParams k).1 ≤ y) (hy2 : y + (kernelParams k).1 < h) :
    gaussianPixel w (List.replicate (w * h) c) (kernelParams k).2.1 (kernelParams k).2.2
      (kernelParams k).1 x y = c := by
  have key : ∀ a b, a < w → b < h → (List.replicate (w * h) c).getD (a + b * w) 0 = c :=
    fun a b ha hb => getD_replicate_lt c (idx_lt ha hb)
  cases k
  · rw [kernelParams_Gaus3x3] at hx1 hx2 hy1 hy2 ⊢
    simp only [gaussianPixel, forLoop, Gaus3x3, Gaus3x3Div, List.range', List.foldl]
      at hx1 hx2 hy1 hy2 ⊢
    simp (disch := omega) only [key]
    simp
    omega
  · rw [kernelParams_Gaus5x5] at hx1 hx2 hy1 hy2 ⊢
    simp only [gaussianPixel, forLoop, Gaus5x5, Gaus5x5Div, List.range', List.foldl]
      at hx1 hx2 hy1 hy2 ⊢
    simp (disch := omega) only [key]
    simp
    omega

/-- Smoothing a constant image of bytes returns it. -/
theorem smoothed_const (w h c : Nat) (k : NoiseFilter) (hc : c < 256) (dst : List Nat)
    (hlen : dst.length = w * h) :
    (Canny.new w h).smoothed dst (List.replicate (w * h) c) k = List.replicate (w * h) c := by
  unfold Canny.smoothed Canny.new
  apply ext_getD
  · simp [gaussianFilter_length, hlen]
  · intro i hi
    rw [gaussianFilter_length, hlen] at hi
    obtain ⟨x, y, hx, hy, rfl⟩ := idx_cover hi
    simp only []
    rw [gaussianFilter_getD _ _ _ _ _ _ _ hx hy hlen, getD_replicate_lt c (idx_lt hx hy)]
    unfold gaussianValue
    split
    · exact getD_replicate_lt c (idx_lt hx hy)
    · rename_i hb
      exact gaussianPixel_const w h c x y k hc (by omega) (by omega) (by omega) (by omega)

/-! ## Sobel -/

theorem sobel_eq (w h : Nat) (dst G s : List Nat) :
    sobel w h dst G s
      = (pixelLoop 1 (w - 1) 1 (h - 1)
            (fun x y d => d.set (x + y * w) (sobelMagnitude w dst x y)) G,
         pixelLoop 1 (w - 1) 1 (h - 1)
            (fun x y d => d.set (x + y * w) (sobelSector w dst x y)) s) := by
  unfold sobel
  rw [← pixelLoop_pair]
  congr 1
  funext x y st
  unfold sobelMagnitude sobelSector
  by_cases hc : (sobelConvolve w dst x y).1 = 0 ∨ (sobelConvolve w dst x y).2 = 0
  · simp only [if_pos hc]
  · simp only [if_neg hc]

/-- Running the Sobel stage on its own result buffers changes nothing. -/
theorem sobel_idem (w h : Nat) (dst G s : List Nat) :
    sobel w h dst (sobel w h dst G s).1 (sobel w h dst G s).2 = sobel w h dst G s := by
  rw [sobel_eq w h dst G s]
  simp only []
  rw [sobel_eq, pixelLoop_set_idem _ _ (Nat.sub_le w 1), pixelLoop_set_idem _ _ (Nat.sub_le w 1)]

theorem sobelConvolve_const (w h c x y : Nat) (hx1 : 1 ≤ x) (hx2 : x + 1 < w)
    (hy1 : 1 ≤ y) (hy2 : y + 1 < h) :
    sobelConvolve w (List.replicate (w * h) c) x y = (0, 0) := by
  have key : ∀ a b, a < w → b < h → (List.replicate (w * h) c).getD (a + b * w) 0 = c :=
    fun a b ha hb => getD_replicate_lt c (idx_lt ha hb)
  simp only [sobelConvolve, forLoop, Gx, Gy, List.range', List.foldl]
  simp (disch := omega) only [key]
  simp

/-- On a constant image the Sobel stage leaves zeroed buffers zeroed. -/
theorem sobel_const (w h c : Nat) :
    sobel w h (List.replicate (w * h) c) (List.replicate (w * h) 0) (List.replicate (w * h) 0)
      = (List.replicate (w * h) 0, List.replicate (w * h) 0) := by
  unfold sobel
  apply pixelLoop_fixed
  intro x y hx0 hx1 hy0 hy1
  rw [sobelConvolve_const w h c x y hx0 (by omega) hy0 (by omega)]
  simp

/-! ## Non maxima suppression -/

theorem nonMaximaSuppression_zero (w h n : Nat) :
    nonMaximaSuppression w h (List.replicate n 0) (List.replicate n 0) (List.replicate n 0)
      = List.replicate n 0 := by
  unfold nonMaximaSuppression
  apply pixelLoop_fixed
  intro x y _ _ _ _
  have hs : (List.replicate n 0).getD (x + y * w) 0 = 0 := by
    by_cases hi : x + y * w < n
    · exact getD_replicate_lt 0 hi
    · exact getD_of_length_le _ (by simp; omega)
  unfold suppressStep
  rw [hs]
  simp

/-! ## Hysteresis -/

theorem pixelLoop_split_cols {σ : Type} {x0 m x1 : Nat} (y0 y1 : Nat)
    (step : Nat → Nat → σ → σ) (s : σ) (h1 : x0 ≤ m) (h2 : m ≤ x1) :
    pixelLoop x0 x1 y0 y1 step s = pixelLoop m x1 y0 y1 step (pixelLoop x0 m y0 y1 step s) := by
  unfold pixelLoop
  exact forLoop_split _ s h1 h2

theorem hysteresisValue_cases (w pos : Nat) (d : List Nat) :
    hysteresisValue w pos d = 0 ∨ hysteresisValue w pos d = 255 := by
  unfold hysteresisValue
  split
  · exact Or.inr rfl
  · split
    · split
      · exact Or.inr rfl
      · exact Or.inl rfl
    · exact Or.inl rfl

theorem hysteresisValue_of_255 {w pos : Nat} {d : List Nat} (h : d.getD pos 0 = 255) :
    hysteresisValue w pos d = 255 := by
  unfold hysteresisValue
  rw [if_pos h]

theorem hysteresisValue_of_other {w pos : Nat} {d : List Nat} (h1 : d.getD pos 0 ≠ 255)
    (h2 : d.getD pos 0 ≠ 100) : hysteresisValue w pos d = 0 := by
  unfold hysteresisValue
  rw [if_neg h1, if_neg h2]

theorem hysteresisValue_of_100 {w pos : Nat} {d : List Nat} (h : d.getD pos 0 = 100) :
    hysteresisValue w pos d =
      if d.getD (pos - 1) 0 = 255 ∨ d.getD (pos + 1) 0 = 255 ∨
         d.getD (pos - 1 - w) 0 = 255 ∨
         d.getD (pos + 1 - w) 0 = 255 ∨ d.getD (pos + w) 0 = 255 ∨
         d.getD (pos + w - 1) 0 = 255 ∨
         d.getD (pos + w + 1) 0 = 255 then 255 else 0 := by
  unfold hysteresisValue
  rw [if_neg (by rw [h]; decide), if_pos h]

theorem hysteresis_length (w h : Nat) (d : List Nat) : (hysteresis w h d).length = d.length :=
  pixelLoop_length (writesOwnCell_set w _) _ _ _ _ _

/-- Cells that are not interior pixels are not touched by the hysteresis stage. -/
theorem hysteresis_frame (w h : Nat) (d : List Nat) (i : Nat)
    (hne : ∀ x y, 1 ≤ x → x < w - 1 → 1 ≤ y → y < h - 1 → i ≠ x + y * w) :
    (hysteresis w h d).getD i 0 = d.getD i 0 :=
  pixelLoop_frame (writesOwnCell_set w _) _ _ _ _ _ _ hne

/-- The final value of an interior pixel is the one computed when it was visited. -/
theorem hysteresis_visit (w h : Nat) (d : List Nat) {x y : Nat} (hx0 : 1 ≤ x) (hx1 : x < w - 1)
    (hy0 : 1 ≤ y) (hy1 : y < h - 1) (hlen : x + y * w < d.length) :
    (hysteresis w h d).getD (x + y * w) 0
      = hysteresisValue w (x + y * w) (hysteresisAt w h d x y) := by
  unfold hysteresis hysteresisAt
  rw [pixelLoop_visit (writesOwnCell_set w _) d hx0 hx1 (Nat.sub_le w 1) hy0 hy1]
  apply getD_set_eq
  rw [stateAt_length (writesOwnCell_set w _)]
  exact hlen

theorem hysteresisAt_self (w h : Nat) (d : List Nat) {x y : Nat} (hx : x < w) :
    (hysteresisAt w h d x y).getD (x + y * w) 0 = d.getD (x + y * w) 0 :=
  stateAt_self (writesOwnCell_set w _) _ _ _ d hx

/-- When `(x, y)` is visited, the pixels of later columns and the lower pixels of its own
column still hold the value they had before the stage. -/
theorem hysteresisAt_later (w h : Nat) (d : List Nat) {x y x' y' : Nat} (hx : x < w)
    (hx' : x' < w) (hlater : x < x' ∨ (x = x' ∧ y ≤ y')) :
    (hysteresisAt w h d x y).getD (x' + y' * w) 0 = d.getD (x' + y' * w) 0 := by
  apply stateAt_frame (writesOwnCell_set w _)
  · intro a b _ ha _ _ hab
    have := (idx_inj hx' (show a < w by omega) hab).1
    omega
  · intro b _ hb hab
    have := idx_inj hx' hx hab
    omega

/-- When `(x, y)` is visited, the pixels of earlier columns already hold their final
value. -/
theorem hysteresisAt_left (w h : Nat) (d : List Nat) {x y x' : Nat} (y' : Nat) (hx0 : 1 ≤ x)
    (hx1 : x < w - 1) (hx' : x' < x) :
    (hysteresisAt w h d x y).getD (x' + y' * w) 0 = (hysteresis w h d).getD (x' + y' * w) 0 := by
  have e1 : (hysteresisAt w h d x y).getD (x' + y' * w) 0
      = (pixelLoop 1 x 1 (h - 1)
          (fun x y dst => dst.set (x + y * w) (hysteresisValue w (x + y * w) dst)) d).getD
          (x' + y' * w) 0 := by
    apply stateAt_left (writesOwnCell_set w _)
    intro b _ _ hab
    have := (idx_inj (show x' < w by omega) (show x < w by omega) hab).1
    omega
  have e2 : (hysteresis w h d).getD (x' + y' * w) 0
      = (pixelLoop 1 x 1 (h - 1)
          (fun x y dst => dst.set (x + y * w) (hysteresisValue w (x + y * w) dst)) d).getD
          (x' + y' * w) 0 := by
    unfold hysteresis
    rw [pixelLoop_split_cols 1 (h - 1) _ d hx0 (le_of_lt hx1)]
    apply pixelLoop_frame (writesOwnCell_set w _)
    intro a b ha1 ha2 _ _ hab
    have := (idx_inj (show x' < w by omega) (show a < w by omega) hab).1
    omega
  rw [e1, e2]

/-- A pixel that is `255` before the stage is `255` after it. -/
theorem hysteresis_keeps_255 (w h : Nat) (d : List Nat) (i : Nat) (hi : d.getD i 0 = 255) :
    (hysteresis w h d).getD i 0 = 255 := by
  by_cases hv : ∃ x y, 1 ≤ x ∧ x < w - 1 ∧ 1 ≤ y ∧ y < h - 1 ∧ i = x + y * w
  · obtain ⟨x, y, hx0, hx1, hy0, hy1, rfl⟩ := hv
    have hlen : x + y * w < d.length := by
      by_contra hge
      rw [getD_of_length_le d (by omega)] at hi
      omega
    rw [hysteresis_visit w h d hx0 hx1 hy0 hy1 hlen]
    apply hysteresisValue_of_255
    rw [hysteresisAt_self w h d (by omega)]
    exact hi
  · rw [hysteresis_frame w h d i (fun x y h1 h2 h3 h4 h5 => hv ⟨x, y, h1, h2, h3, h4, h5⟩)]
    exact hi

/-- A pixel that is neither `100` nor `255` before the stage is not `255` after it. -/
theorem hysteresis_not_255 (w h : Nat) (d : List Nat) (i : Nat) (h1 : d.getD i 0 ≠ 255)
    (h2 : d.getD i 0 ≠ 100) : (hysteresis w h d).getD i 0 ≠ 255 := by
  by_cases hv : ∃ x y, 1 ≤ x ∧ x < w - 1 ∧ 1 ≤ y ∧ y < h - 1 ∧ i = x + y * w
  · obtain ⟨x, y, hx0, hx1, hy0, hy1, rfl⟩ := hv
    by_cases hlen : x + y * w < d.length
    · rw [hysteresis_visit w h d hx0 hx1 hy0 hy1 hlen, hysteresisValue_of_other]
      · decide
      · rw [hysteresisAt_self w h d (by omega)]; exact h1
      · rw [hysteresisAt_self w h d (by omega)]; exact h2
    · rw [getD_of_length_le _ (by rw [hysteresis_length]; omega)]
      decide
  · rw [hysteresis_frame w h d i (fun x y h1 h2 h3 h4 h5 => hv ⟨x, y, h1, h2, h3, h4, h5⟩)]
    exact h1

/-! ## The whole pipeline -/

theorem smoothed_length (c : Canny) (dst src : List Nat) (k : NoiseFilter) :
    (c.smoothed dst src k).length = dst.length := by
  unfold Canny.smoothed
  exact gaussianFilter_length _ _ _ _ _ _ _

theorem thresholded_length (c : Canny) (dst src : List Nat) (k : NoiseFilter)
    (weak strong : Int) : (c.thresholded dst src k weak strong).length = dst.length := by
  unfold Canny.thresholded
  rw [doubleThreshold_length, smoothed_length]

/-- The smoothed buffer does not depend on the detector buffers nor on what `dst` held. -/
theorem smoothed_congr (c c' : Canny) (dst dst' src : List Nat) (k : NoiseFilter)
    (hw : c'.w_ = c.w_) (hh : c'.h_ = c.h_) (hlen : dst.length = c.w_ * c.h_)
    (hlen' : dst'.length = c.w_ * c.h_) :
    c'.smoothed dst' src k = c.smoothed dst src k := by
  unfold Canny.smoothed
  rw [hw, hh]
  exact gaussianFilter_congr _ _ _ _ _ _ _ _ hlen' hlen

/-- On a constant image a fresh detector keeps `G_` and `s_` zero. -/
theorem gradient_const (w h c : Nat) (k : NoiseFilter) (hc : c < 256) (dst : List Nat)
    (hlen : dst.length = w * h) :
    (Canny.new w h).gradient dst (List.replicate (w * h) c) k
      = (List.replicate (w * h) 0, List.replicate (w * h) 0) := by
  unfold Canny.gradient
  rw [smoothed_const w h c k hc dst hlen]
  exact sobel_const w h c

/-- On a constant image a fresh detector keeps `M_` zero. -/
theorem suppressed_const (w h c : Nat) (k : NoiseFilter) (hc : c < 256) (dst : List Nat)
    (hlen : dst.length = w * h) :
    (Canny.new w h).suppressed dst (List.replicate (w * h) c) k = List.replicate (w * h) 0 := by
  unfold Canny.suppressed
  rw [gradient_const w h c k hc dst hlen]
  exact nonMaximaSuppression_zero w h (w * h)

theorem hysteresis_zero (w h n : Nat) :
    hysteresis w h (List.replicate n 0) = List.replicate n 0 := by
  unfold hysteresis
  apply pixelLoop_fixed
  intro x y _ _ _ _
  have hs : (List.replicate n 0).getD (x + y * w) 0 = 0 := by
    by_cases hi : x + y * w < n
    · exact getD_replicate_lt 0 hi
    · exact getD_of_length_le _ (by simp; omega)
  simp only []
  rw [hysteresisValue_of_other (by rw [hs]; decide) (by rw [hs]; decide)]
  exact List.set_replicate_self

/-! ## Claims -/

/-- C1 (defect of the code): on the 3 x 4 image `cornerImage` with kernel Gaus3x3, weak
threshold 300 and strong threshold 700 the double threshold classifies the pixel (1,1)
as 255 and the pixel (1,2) below it as 100. When (1,2) is visited its up neighbour holds
255, yet the hysteresis loop sets (1,2) to 0: the loop tests seven neighbours and leaves
out `dst[src_pos - w_]`. -/
theorem hysteresis_misses_up_neighbour :
    (Canny.new 3 4).thresholded (List.replicate 12 0) cornerImage NoiseFilter.Gaus3x3 300 700
        = [0, 0, 0,
           0, 255, 0,
           0, 100, 0,
           0, 0, 0] ∧
      (hysteresisAt 3 4
        ((Canny.new 3 4).thresholded (List.replicate 12 0) cornerImage NoiseFilter.Gaus3x3
          300 700) 1 2).getD (1 + 1 * 3) 0 = 255 ∧
      ((Canny.new 3 4).edges (List.replicate 12 0) cornerImage NoiseFilter.Gaus3x3 300 700).1
        = [0, 0, 0,
           0, 255, 0,
           0, 0, 0,
           0, 0, 0] := by
  decide

/-- C2 (counterexample): on the 5 x 3 image `chainImage` with kernel Gaus3x3, weak
threshold 100 and strong threshold 400 the double threshold gives the row
`0, 255, 100, 100, 0`. The pixel (3,1) is classified 100 and none of its 8 neighbours is
classified 255, yet it ends as 255: its left neighbour (2,1) was promoted earlier in the
same pass. -/
theorem hysteresis_chain_promoted :
    (Canny.new 5 3).thresholded (List.replicate 15 0) chainImage NoiseFilter.Gaus3x3 100 400
        = [0, 0, 0, 0, 0,
           0, 255, 100, 100, 0,
           0, 0, 0, 0, 0] ∧
      ((Canny.new 5 3).edges (List.replicate 15 0) chainImage NoiseFilter.Gaus3x3 100 400).1
        = [0, 0, 0, 0, 0,
           0, 255, 255, 255, 0,
           0, 0, 0, 0, 0] ∧
      ((Canny.new 5 3).edges (List.replicate 15 0) chainImage NoiseFilter.Gaus3x3
        100 400).1.getD (3 + 1 * 5) 0 ≠ 0 := by
  decide

/-- C3 (counterexample): on the constant 3 x 3 image of intensity 7 with kernel Gaus3x3,
weak threshold -2 and strong threshold -1, a fresh detector returns 255 at every pixel:
the magnitude 0 is above a negative threshold. -/
theorem edges_const_negative_threshold :
    ((Canny.new 3 3).edges (List.replicate 9 0) (List.replicate 9 7) NoiseFilter.Gaus3x3
      (-2) (-1)).1 = List.replicate 9 255 := by
  decide

/-- C3 (amended): for every `w`, `h`, every constant source image of bytes, either kernel
and all weak and strong thresholds that are both at least 0, the map returned by
`Canny::edges` on a freshly constructed detector is 0 at every pixel. -/
theorem edges_const_zero (w h c : Nat) (k : NoiseFilter) (weak strong : Int) (dst : List Nat)
    (hc : c < 256) (hlen : dst.length = w * h) (hweak : 0 ≤ weak) (hstrong : 0 ≤ strong) :
    ((Canny.new w h).edges dst (List.replicate (w * h) c) k weak strong).1
      = List.replicate (w * h) 0 := by
  have hthr : (Canny.new w h).thresholded dst (List.replicate (w * h) c) k weak strong
      = List.replicate (w * h) 0 := by
    apply ext_getD
    · rw [thresholded_length, hlen, List.length_replicate]
    · intro i hi
      rw [thresholded_length, hlen] at hi
      obtain ⟨x, y, hx, hy, rfl⟩ := idx_cover hi
      unfold Canny.thresholded
      rw [suppressed_const w h c k hc dst hlen, smoothed_const w h c k hc dst hlen]
      have hd := doubleThreshold_getD w h (List.replicate (w * h) 0) weak strong
        (List.replicate (w * h) c) hx hy (List.length_replicate _ _)
      have hw' : (Canny.new w h).w_ = w := rfl
      have hh' : (Canny.new w h).h_ = h := rfl
      rw [hw', hh', hd, getD_replicate_lt 0 (idx_lt hx hy)]
      have h1 : magGt 0 strong = false := by
        unfold magGt
        simp only [decide_eq_false_iff_not, not_or, not_lt]
        exact ⟨hstrong, by positivity⟩
      have h2 : magGt 0 weak = false := by
        unfold magGt
        simp only [decide_eq_false_iff_not, not_or, not_lt]
        exact ⟨hweak, by positivity⟩
      simp [classify, h1, h2]
  unfold Canny.edges
  simp only []
  rw [hthr]
  exact hysteresis_zero _ _ _

/-- Witness for C3 (amended): the constant 3 x 3 image of intensity 200 with
thresholds 0 and 0. -/
theorem edges_const_zero_witness :
    ((Canny.new 3 3).edges [1, 2, 3, 4, 5, 6, 7, 8, 9] (List.replicate (3 * 3) 200)
      NoiseFilter.Gaus5x5 0 0).1 = List.replicate (3 * 3) 0 :=
  edges_const_zero 3 3 200 NoiseFilter.Gaus5x5 0 0 [1, 2, 3, 4, 5, 6, 7, 8, 9]
    (by decide) (by decide) (by decide) (by decide)

set_option maxRecDepth 100000 in
/-- The edge map, the magnitudes and the sectors of the 7 x 7 step image, computed on a
zeroed destination buffer. -/
theorem edges_step_eval :
    (Canny.new 7 7).edges (List.replicate 49 0) stepImage NoiseFilter.Gaus3x3 10 50
      = ([0, 0,   0, 0,   0, 0, 0,
          0, 0, 255, 0, 255, 0, 0,
          0, 0,   0, 0,   0, 0, 0,
          0, 0,   0, 0,   0, 0, 0,
          0, 0,   0, 0,   0, 0, 0,
          0, 0, 255, 0, 255, 0, 0,
          0, 0,   0, 0,   0, 0, 0],
         { w_ := 7, h_ := 7, size_ := 49,
           G_ := [0,     0,      0, 0,      0,     0, 0,
                  0, 39690, 404500, 0, 404500, 39690, 0,
                  0,     0,      0, 0,      0,     0, 0,
                  0,     0,      0, 0,      0,     0, 0,
                  0,     0,      0, 0,      0,     0, 0,
                  0, 39690, 404500, 0, 404500, 39690, 0,
                  0,     0,      0, 0,      0,     0, 0],
           M_ := [0, 0,      0, 0,      0, 0, 0,
                  0, 0, 404500, 0, 404500, 0, 0,
                  0, 0,      0, 0,      0, 0, 0,
                  0, 0,      0, 0,      0, 0, 0,
                  0, 0,      0, 0,      0, 0, 0,
                  0, 0, 404500, 0, 404500, 0, 0,
                  0, 0,      0, 0,      0, 0, 0],
           s_ := [0, 0, 0, 0, 0, 0, 0,
                  0, 1, 1, 0, 1, 1, 0,
                  0, 0, 0, 0, 0, 0, 0,
                  0, 0, 0, 0, 0, 0, 0,
                  0, 0, 0, 0, 0, 0, 0,
                  0, 1, 1, 0, 1, 1, 0,
                  0, 0, 0, 0, 0, 0, 0] }) := by
  decide

/-- C4 (counterexample): for the 7 x 7 step image with kernel Gaus3x3 and thresholds 10 and
50, the interior pixel (2,3) of column 2 is returned as 0, not 255, and the pixel (2,1),
which is returned as 255, has sector 1, not the vertical sector 3. -/
theorem edges_step_counterexample :
    ((Canny.new 7 7).edges (List.replicate 49 0) stepImage NoiseFilter.Gaus3x3
        10 50).1.getD (2 + 3 * 7) 0 = 0 ∧
      ((Canny.new 7 7).edges (List.replicate 49 0) stepImage NoiseFilter.Gaus3x3
        10 50).1.getD (2 + 1 * 7) 0 = 255 ∧
      ((Canny.new 7 7).edges (List.replicate 49 0) stepImage NoiseFilter.Gaus3x3
        10 50).2.s_.getD (2 + 1 * 7) 0 = 1 := by
  rw [edges_step_eval]
  decide


/-! ### Determinism -/

theorem gradient_congr (c c' : Canny) (dst dst' src : List Nat) (k : NoiseFilter)
    (hw : c'.w_ = c.w_) (hh : c'.h_ = c.h_) (hG : c'.G_ = c.G_) (hs : c'.s_ = c.s_)
    (hlen : dst.length = c.w_ * c.h_) (hlen' : dst'.length = c.w_ * c.h_) :
    c'.gradient dst' src k = c.gradient dst src k := by
  unfold Canny.gradient
  rw [smoothed_congr c c' dst dst' src k hw hh hlen hlen', hw, hh, hG, hs]

/-- The result of `edges` does not depend on what `dst` held before the call. -/
theorem edges_congr_dst (c : Canny) (dst dst' src : List Nat) (k : NoiseFilter)
    (weak strong : Int) (hlen : dst.length = c.w_ * c.h_) (hlen' : dst'.length = c.w_ * c.h_) :
    c.edges dst' src k weak strong = c.edges dst src k weak strong := by
  have hsm := smoothed_congr c c dst dst' src k rfl rfl hlen hlen'
  have hgr := gradient_congr c c dst dst' src k rfl rfl rfl rfl hlen hlen'
  unfold Canny.edges Canny.thresholded Canny.suppressed
  rw [hsm, hgr]

/-- A second call of `edges` on the detector left by a first call, with the same source,
kernel and thresholds, returns the same map and leaves the same detector. -/
theorem edges_again (c : Canny) (dst dst' src : List Nat) (k : NoiseFilter)
    (weak strong : Int) (hlen : dst.length = c.w_ * c.h_) (hlen' : dst'.length = c.w_ * c.h_) :
    (c.edges dst src k weak strong).2.edges dst' src k weak strong
      = c.edges dst src k weak strong := by
  have hsm : (c.edges dst src k weak strong).2.smoothed dst' src k = c.smoothed dst src k :=
    smoothed_congr c _ dst dst' src k rfl rfl hlen hlen'
  have hgr : (c.edges dst src k weak strong).2.gradient dst' src k = c.gradient dst src k := by
    unfold Canny.gradient
    rw [hsm]
    exact sobel_idem c.w_ c.h_ (c.smoothed dst src k) c.G_ c.s_
  have hsu : (c.edges dst src k weak strong).2.suppressed dst' src k
      = c.suppressed dst src k := by
    unfold Canny.suppressed
    rw [hgr]
    rfl
  have hth : (c.edges dst src k weak strong).2.thresholded dst' src k weak strong
      = c.thresholded dst src k weak strong := by
    unfold Canny.thresholded
    rw [hsu, hsm]
    rfl
  have hun : ∀ d : Canny, d.edges dst' src k weak strong
      = (hysteresis d.w_ d.h_ (d.thresholded dst' src k weak strong),
         { d with G_ := (d.gradient dst' src k).1,
                  M_ := d.suppressed dst' src k,
                  s_ := (d.gradient dst' src k).2 }) := fun _ => rfl
  rw [hun, hth, hgr, hsu]
  rfl

/-- C4 (amended): for the 7 x 7 source image that is 0 everywhere except column 3, which
is 255, with kernel Gaus3x3, weak threshold 10 and strong threshold 50, `Canny::edges` on a
fresh detector returns 255 exactly at the four interior pixels (2,1), (4,1), (2,5), (4,5),
whose sector is 1, and 0 at every other pixel: at rows 2 to 4 of columns 2 and 4 the sum
`convolve_Y` is 0, so the magnitude and the sector are 0 there; every pixel of columns 0, 1,
5 and 6 is 0. -/
theorem edges_step (dst : List Nat) (hlen : dst.length = 49) :
    ((Canny.new 7 7).edges dst stepImage NoiseFilter.Gaus3x3 10 50).1
        = [0, 0,   0, 0,   0, 0, 0,
           0, 0, 255, 0, 255, 0, 0,
           0, 0,   0, 0,   0, 0, 0,
           0, 0,   0, 0,   0, 0, 0,
           0, 0,   0, 0,   0, 0, 0,
           0, 0, 255, 0, 255, 0, 0,
           0, 0,   0, 0,   0, 0, 0] ∧
      ((Canny.new 7 7).edges dst stepImage NoiseFilter.Gaus3x3 10 50).2.s_
        = [0, 0, 0, 0, 0, 0, 0,
           0, 1, 1, 0, 1, 1, 0,
           0, 0, 0, 0, 0, 0, 0,
           0, 0, 0, 0, 0, 0, 0,
           0, 0, 0, 0, 0, 0, 0,
           0, 1, 1, 0, 1, 1, 0,
           0, 0, 0, 0, 0, 0, 0] ∧
      ((Canny.new 7 7).edges dst stepImage NoiseFilter.Gaus3x3 10 50).2.G_.getD (2 + 3 * 7) 0
        = 0 := by
  rw [edges_congr_dst (Canny.new 7 7) (List.replicate 49 0) dst stepImage NoiseFilter.Gaus3x3
    10 50 (by decide) hlen, edges_step_eval]
  decide

/-- Witness for C4 (amended): a destination buffer that holds 9 everywhere. -/
theorem edges_step_witness :
    ((Canny.new 7 7).edges (List.replicate 49 9) stepImage NoiseFilter.Gaus3x3
      10 50).1.getD (2 + 1 * 7) 0 = 255 := by
  rw [(edges_step (List.replicate 49 9) (by decide)).1]
  decide

/-- C5: the double threshold writes, at every pixel of the grid (border included), a
value in {0, 100, 255}; it is 255 exactly when the magnitude `M[pixel]` is above
`strong_threshold`, and 100 exactly when `weak_threshold < M[pixel] <= strong_threshold`.
The cell of `M` holds the square of the magnitude, so the magnitude is its square root. -/
theorem doubleThreshold_spec (w h : Nat) (M dst : List Nat) (weak strong : Int) (x y : Nat)
    (hx : x < w) (hy : y < h) (hlen : dst.length = w * h) :
    ((doubleThreshold w h M weak strong dst).getD (x + y * w) 0 = 0 ∨
        (doubleThreshold w h M weak strong dst).getD (x + y * w) 0 = 100 ∨
        (doubleThreshold w h M weak strong dst).getD (x + y * w) 0 = 255) ∧
      ((doubleThreshold w h M weak strong dst).getD (x + y * w) 0 = 255 ↔
        (strong : ℝ) < Real.sqrt ((M.getD (x + y * w) 0 : Nat) : ℝ)) ∧
      ((doubleThreshold w h M weak strong dst).getD (x + y * w) 0 = 100 ↔
        (weak : ℝ) < Real.sqrt ((M.getD (x + y * w) 0 : Nat) : ℝ) ∧
          Real.sqrt ((M.getD (x + y * w) 0 : Nat) : ℝ) ≤ (strong : ℝ)) := by
  rw [doubleThreshold_getD w h M weak strong dst hx hy hlen]
  refine ⟨classify_cases _ _ _, ?_, ?_⟩
  · rw [classify_eq_255, magGt_iff_sqrt]
  · rw [classify_eq_100, magGt_iff_sqrt, magGt_iff_sqrt, not_lt]

/-- Witness for C5: a 2 x 1 grid with magnitudes 3 and 2 (squares 9
and 4), weak threshold 1 and strong threshold 2, read at the pixel (1,0). -/
theorem doubleThreshold_spec_witness :
    (doubleThreshold 2 1 [9, 4] 1 2 [7, 7]).getD (1 + 0 * 2) 0 = 100 ∧
      ((doubleThreshold 2 1 [9, 4] 1 2 [7, 7]).getD (1 + 0 * 2) 0 = 100 ↔
        ((1 : Int) : ℝ) < Real.sqrt (([9, 4].getD (1 + 0 * 2) 0 : Nat) : ℝ) ∧
          Real.sqrt (([9, 4].getD (1 + 0 * 2) 0 : Nat) : ℝ) ≤ ((2 : Int) : ℝ)) :=
  ⟨by decide,
   (doubleThreshold_spec 2 1 [9, 4] [7, 7] 1 2 1 0 (by decide) (by decide) (by decide)).2.2⟩

/-- C6: every interior pixel of the map returned by `Canny::edges` is 0 or 255, and every
border pixel (`x = 0`, `x = w-1`, `y = 0` or `y = h-1`) holds exactly the value the double
threshold wrote there, which is the class of its cell of `M_`. -/
theorem edges_values (c : Canny) (dst src : List Nat) (k : NoiseFilter) (weak strong : Int)
    (x y : Nat) (hx : x < c.w_) (hy : y < c.h_) (hlen : dst.length = c.w_ * c.h_) :
    ((1 ≤ x ∧ x + 1 < c.w_ ∧ 1 ≤ y ∧ y + 1 < c.h_) →
        (c.edges dst src k weak strong).1.getD (x + y * c.w_) 0 = 0 ∨
        (c.edges dst src k weak strong).1.getD (x + y * c.w_) 0 = 255) ∧
      ((x = 0 ∨ x + 1 = c.w_ ∨ y = 0 ∨ y + 1 = c.h_) →
        (c.edges dst src k weak strong).1.getD (x + y * c.w_) 0
            = (c.thresholded dst src k weak strong).getD (x + y * c.w_) 0 ∧
        (c.thresholded dst src k weak strong).getD (x + y * c.w_) 0
            = classify ((c.suppressed dst src k).getD (x + y * c.w_) 0) weak strong) := by
  have hed : (c.edges dst src k weak strong).1
      = hysteresis c.w_ c.h_ (c.thresholded dst src k weak strong) := rfl
  rw [hed]
  constructor
  · rintro ⟨hx0, hx1, hy0, hy1⟩
    rw [hysteresis_visit c.w_ c.h_ _ hx0 (by omega) hy0 (by omega)
      (by rw [thresholded_length, hlen]; exact idx_lt hx hy)]
    exact hysteresisValue_cases _ _ _
  · intro hb
    constructor
    · apply hysteresis_frame
      intro a b ha0 ha1 hb0 hb1 hab
      have := idx_inj hx (show a < c.w_ by omega) hab
      omega
    · unfold Canny.thresholded
      exact doubleThreshold_getD _ _ _ _ _ _ hx hy (by rw [smoothed_length, hlen])

/-- Witness for C6: the corner image, at the interior pixel (1,2). -/
theorem edges_values_witness :
    ((Canny.new 3 4).edges (List.replicate 12 0) cornerImage NoiseFilter.Gaus3x3
        300 700).1.getD (1 + 2 * 3) 0 = 0 ∨
      ((Canny.new 3 4).edges (List.replicate 12 0) cornerImage NoiseFilter.Gaus3x3
        300 700).1.getD (1 + 2 * 3) 0 = 255 :=
  (edges_values (Canny.new 3 4) (List.replicate 12 0) cornerImage NoiseFilter.Gaus3x3 300 700
    1 2 (by decide) (by decide) (by decide)).1 (by decide)

/-- C7: on a grid with values in {0, 100, 255} the hysteresis stage keeps every 255 and
every 0, and the only changes it makes are 100 to 255 and 100 to 0. -/
theorem hysteresis_changes (w h : Nat) (d : List Nat) (i : Nat)
    (htri : ∀ j, d.getD j 0 = 0 ∨ d.getD j 0 = 100 ∨ d.getD j 0 = 255) :
    (d.getD i 0 = 255 → (hysteresis w h d).getD i 0 = 255) ∧
      (d.getD i 0 = 0 → (hysteresis w h d).getD i 0 = 0) ∧
      ((hysteresis w h d).getD i 0 ≠ d.getD i 0 →
        d.getD i 0 = 100 ∧
          ((hysteresis w h d).getD i 0 = 255 ∨ (hysteresis w h d).getD i 0 = 0)) := by
  have hout : (hysteresis w h d).getD i 0 = d.getD i 0 ∨
      ((hysteresis w h d).getD i 0 = 0 ∨ (hysteresis w h d).getD i 0 = 255) := by
    by_cases hv : ∃ x y, 1 ≤ x ∧ x < w - 1 ∧ 1 ≤ y ∧ y < h - 1 ∧ i = x + y * w
    · obtain ⟨x, y, hx0, hx1, hy0, hy1, rfl⟩ := hv
      by_cases hlen : x + y * w < d.length
      · rw [hysteresis_visit w h d hx0 hx1 hy0 hy1 hlen]
        exact Or.inr (hysteresisValue_cases _ _ _)
      · left
        rw [getD_of_length_le _ (by rw [hysteresis_length]; omega),
          getD_of_length_le d (by omega)]
    · exact Or.inl
        (hysteresis_frame w h d i (fun x y h1 h2 h3 h4 h5 => hv ⟨x, y, h1, h2, h3, h4, h5⟩))
  have h255 := hysteresis_keeps_255 w h d i
  have hn255 := hysteresis_not_255 w h d i
  refine ⟨h255, ?_, ?_⟩
  · intro h0
    have := hn255 (by omega) (by omega)
    rcases hout with h1 | h1 | h1
    · omega
    · exact h1
    · exact absurd h1 this
  · intro hne
    rcases htri i with h0 | h0 | h0
    · have := hn255 (by omega) (by omega)
      rcases hout with h1 | h1 | h1
      · exact absurd h1 hne
      · omega
      · exact absurd h1 this
    · refine ⟨h0, ?_⟩
      rcases hout with h1 | h1 | h1
      · exact absurd h1 hne
      · exact Or.inr h1
      · exact Or.inl h1
    · exact absurd (h255 h0) (by omega)

/-- Witness for C7: a 3 x 3 grid whose centre is 100 next to a 255. -/
theorem hysteresis_changes_witness :
    [0, 0, 0, 255, 100, 0, 0, 0, 0].getD 4 0 = 100 ∧
      ((hysteresis 3 3 [0, 0, 0, 255, 100, 0, 0, 0, 0]).getD 4 0 = 255 ∨
        (hysteresis 3 3 [0, 0, 0, 255, 100, 0, 0, 0, 0]).getD 4 0 = 0) :=
  (hysteresis_changes 3 3 [0, 0, 0, 255, 100, 0, 0, 0, 0] 4 (by
    intro j
    by_cases hj : j < 9
    · interval_cases j <;> simp
    · left
      exact getD_of_length_le _ (by simp; omega))).2.2 (by decide)

/-- C8: a second call of `edges` with the same source, kernel and thresholds, on the
detector left by the first call, returns exactly the map the first call returned (and
leaves the same detector), and the result does not depend on the initial contents of the
destination buffer. This holds for every state `c` of the detector, a freshly built one
included. -/
theorem edges_deterministic (c : Canny) (dst dst' src : List Nat) (k : NoiseFilter)
    (weak strong : Int) (hlen : dst.length = c.w_ * c.h_) (hlen' : dst'.length = c.w_ * c.h_) :
    ((c.edges dst src k weak strong).2.edges dst' src k weak strong).1
        = (c.edges dst src k weak strong).1 ∧
      ((c.edges dst src k weak strong).2.edges dst' src k weak strong).2
        = (c.edges dst src k weak strong).2 ∧
      c.edges dst' src k weak strong = c.edges dst src k weak strong := by
  rw [edges_again c dst dst' src k weak strong hlen hlen']
  exact ⟨rfl, rfl, edges_congr_dst c dst dst' src k weak strong hlen hlen'⟩

/-- Witness for C8: the corner image on a fresh 3 x 4 detector, the
second call on the buffer that holds the first result. -/
theorem edges_deterministic_witness :
    (((Canny.new 3 4).edges (List.replicate 12 0) cornerImage NoiseFilter.Gaus3x3
        300 700).2.edges [0, 0, 0, 0, 255, 0, 0, 0, 0, 0, 0, 0] cornerImage
        NoiseFilter.Gaus3x3 300 700).1
      = ((Canny.new 3 4).edges (List.replicate 12 0) cornerImage NoiseFilter.Gaus3x3
        300 700).1 :=
  (edges_deterministic (Canny.new 3 4) (List.replicate 12 0)
    [0, 0, 0, 0, 255, 0, 0, 0, 0, 0, 0, 0] cornerImage NoiseFilter.Gaus3x3 300 700
    (by decide) (by decide)).1

/-- C9: the half width is 1 for Gaus3x3 and 2 for Gaus5x5; at every pixel with
`x < half width`, `x >= w - half width`, `y < half width` or `y >= h - half width` the
smoothed buffer holds the source byte of that pixel; and when `w` or `h` is at most twice
the half width the whole smoothed image equals the source. -/
theorem smoothed_copy_through (c : Canny) (dst src : List Nat) (k : NoiseFilter)
    (hlen : dst.length = c.w_ * c.h_) :
    ((kernelParams NoiseFilter.Gaus3x3).1 = 1 ∧ (kernelParams NoiseFilter.Gaus5x5).1 = 2) ∧
      (∀ x y, x < c.w_ → y < c.h_ →
        (x < (kernelParams k).1 ∨ c.w_ ≤ x + (kernelParams k).1 ∨
          y < (kernelParams k).1 ∨ c.h_ ≤ y + (kernelParams k).1) →
        (c.smoothed dst src k).getD (x + y * c.w_) 0 = src.getD (x + y * c.w_) 0) ∧
      ((c.w_ ≤ 2 * (kernelParams k).1 ∨ c.h_ ≤ 2 * (kernelParams k).1) →
        src.length = c.w_ * c.h_ → c.smoothed dst src k = src) := by
  have hpix : ∀ x y, x < c.w_ → y < c.h_ →
      (x < (kernelParams k).1 ∨ c.w_ ≤ x + (kernelParams k).1 ∨
        y < (kernelParams k).1 ∨ c.h_ ≤ y + (kernelParams k).1) →
      (c.smoothed dst src k).getD (x + y * c.w_) 0 = src.getD (x + y * c.w_) 0 := by
    intro x y hx hy hb
    unfold Canny.smoothed
    simp only []
    rw [gaussianFilter_getD _ _ _ _ _ _ _ hx hy hlen]
    unfold gaussianValue
    rw [if_pos hb]
  refine ⟨⟨rfl, rfl⟩, hpix, ?_⟩
  intro hsmall hsrc
  apply ext_getD
  · rw [smoothed_length, hlen, hsrc]
  · intro i hi
    rw [smoothed_length, hlen] at hi
    obtain ⟨x, y, hx, hy, rfl⟩ := idx_cover hi
    apply hpix x y hx hy
    omega

/-- Witness for C9: the corner image with the 5 x 5 kernel, whose
width 3 is below twice the half width. -/
theorem smoothed_copy_through_witness :
    (Canny.new 3 4).smoothed (List.replicate 12 0) cornerImage NoiseFilter.Gaus5x5
      = cornerImage :=
  (smoothed_copy_through (Canny.new 3 4) (List.replicate 12 0) cornerImage
    NoiseFilter.Gaus5x5 (by decide)).2.2 (by decide) (by decide)

/-- C10: for every constant source image of bytes and either kernel, on a freshly
constructed detector the smoothed image equals the source, and after `Canny::edges` the
magnitude field `G_` and the suppressed field `M_` are 0 at every pixel of the grid. -/
theorem const_image_no_gradient (w h c : Nat) (k : NoiseFilter) (weak strong : Int)
    (dst : List Nat) (hc : c < 256) (hlen : dst.length = w * h) :
    (Canny.new w h).smoothed dst (List.replicate (w * h) c) k = List.replicate (w * h) c ∧
      ((Canny.new w h).edges dst (List.replicate (w * h) c) k weak strong).2.G_
        = List.replicate (w * h) 0 ∧
      ((Canny.new w h).edges dst (List.replicate (w * h) c) k weak strong).2.M_
        = List.replicate (w * h) 0 := by
  refine ⟨smoothed_const w h c k hc dst hlen, ?_, ?_⟩
  · show ((Canny.new w h).gradient dst (List.replicate (w * h) c) k).1 = _
    rw [gradient_const w h c k hc dst hlen]
  · show (Canny.new w h).suppressed dst (List.replicate (w * h) c) k = _
    exact suppressed_const w h c k hc dst hlen

/-- Witness for C10: the constant 5 x 5 image of intensity 255 with
the 5 x 5 kernel. -/
theorem const_image_no_gradient_witness :
    ((Canny.new 5 5).edges (List.replicate 25 1) (List.replicate (5 * 5) 255)
      NoiseFilter.Gaus5x5 50 200).2.G_ = List.replicate (5 * 5) 0 :=
  (const_image_no_gradient 5 5 255 NoiseFilter.Gaus5x5 50 200 (List.replicate 25 1)
    (by decide) (by decide)).2.1

/-! ## Non maxima suppression, pixel by pixel -/

theorem suppressStep_eq (w : Nat) (G s : List Nat) (pos : Nat) (M : List Nat) :
    suppressStep w G s pos M = if suppressZero w G s pos = true then M.set pos 0 else M := by
  unfold suppressStep suppressZero
  generalize s.getD pos 0 = k
  rcases k with _ | _ | _ | _ | _ | k <;> simp

theorem suppressStep_writes (w : Nat) (G s : List Nat) :
    WritesOwnCell w (fun x y M => suppressStep w G s (x + y * w) M) := by
  intro x y d
  simp only [suppressStep_eq]
  split
  · exact ⟨by simp, fun i hi => getD_set_ne d _ hi⟩
  · exact ⟨rfl, fun _ _ => rfl⟩

theorem nonMaximaSuppression_length (w h : Nat) (G s M : List Nat) :
    (nonMaximaSuppression w h G s M).length = M.length :=
  pixelLoop_length (suppressStep_writes w G s) _ _ _ _ _

/-- Cells that are not interior pixels keep the value copied from `G_`. -/
theorem nonMaximaSuppression_frame (w h : Nat) (G s M : List Nat) (i : Nat)
    (hne : ∀ x y, 1 ≤ x → x < w - 1 → 1 ≤ y → y < h - 1 → i ≠ x + y * w) :
    (nonMaximaSuppression w h G s M).getD i 0 = M.getD i 0 :=
  pixelLoop_frame (suppressStep_writes w G s) _ _ _ _ _ _ hne

/-- The suppressed magnitude of an interior pixel: 0 when the test of its sector holds,
the magnitude itself otherwise. -/
theorem nonMaximaSuppression_visit (w h : Nat) (G s M : List Nat) {x y : Nat} (hx0 : 1 ≤ x)
    (hx1 : x < w - 1) (hy0 : 1 ≤ y) (hy1 : y < h - 1) :
    (nonMaximaSuppression w h G s M).getD (x + y * w) 0
      = if suppressZero w G s (x + y * w) = true then 0 else M.getD (x + y * w) 0 := by
  unfold nonMaximaSuppression
  rw [pixelLoop_visit (suppressStep_writes w G s) M hx0 hx1 (Nat.sub_le w 1) hy0 hy1,
    suppressStep_eq]
  have hself := stateAt_self (suppressStep_writes w G s) 1 1 (h - 1) (x := x) (y := y) M
    (by omega)
  have hlen := stateAt_length (suppressStep_writes w G s) 1 1 (h - 1) x y M
  split
  · by_cases hp : x + y * w < M.length
    · exact getD_set_eq _ 0 (by rw [hlen]; exact hp)
    · exact getD_of_length_le _ (by simp; rw [hlen]; omega)
  · exact hself

/-! ## Neighbours of a pixel as flat indices -/

theorem idx_left {x : Nat} (y w : Nat) (hx : 1 ≤ x) : x + y * w - 1 = (x - 1) + y * w := by
  omega

theorem idx_up (x : Nat) {y : Nat} (w : Nat) (hy : 1 ≤ y) :
    x + y * w - w = x + (y - 1) * w := by
  obtain ⟨b, rfl⟩ : ∃ b, y = b + 1 := ⟨y - 1, by omega⟩
  simp only [Nat.add_sub_cancel, Nat.add_mul, Nat.one_mul]
  omega

theorem idx_down (x y w : Nat) : x + y * w + w = x + (y + 1) * w := by
  simp only [Nat.add_mul, Nat.one_mul]
  omega

theorem idx_upleft {x y : Nat} (w : Nat) (hx : 1 ≤ x) (hy : 1 ≤ y) :
    x + y * w - (w + 1) = (x - 1) + (y - 1) * w := by
  rw [← idx_up (x - 1) w hy]
  omega

theorem idx_upright (x : Nat) {y w : Nat} (hy : 1 ≤ y) (hw : 1 ≤ w) :
    x + y * w - (w - 1) = (x + 1) + (y - 1) * w := by
  rw [← idx_up (x + 1) w hy]
  obtain ⟨b, rfl⟩ : ∃ b, y = b + 1 := ⟨y - 1, by omega⟩
  simp only [Nat.add_mul, Nat.one_mul]
  omega

theorem idx_downleft {x : Nat} (y : Nat) {w : Nat} (hx : 1 ≤ x) (hw : 1 ≤ w) :
    x + y * w + (w - 1) = (x - 1) + (y + 1) * w := by
  rw [← idx_down (x - 1) y w]
  omega

theorem idx_downright (x y w : Nat) : x + y * w + (w + 1) = (x + 1) + (y + 1) * w := by
  rw [← idx_down (x + 1) y w]
  omega

/-! ## Claims on the suppression stage -/

/-- C11: for every magnitude field `G` and sector map `S` and every interior pixel `p`,
if `S[p]` is in 1..4 then `M[p] = 0` when `G[n1] >= G[p]` or `G[n2] > G[p]` and
`M[p] = G[p]` otherwise, where `(n1, n2)` is (left, right) for sector 1, (up-right,
down-left) for sector 2, (up, down) for sector 3 and (up-left, down-right) for sector 4;
for any other `S[p]`, `M[p] = 0`; and `M` equals `G` at every border pixel. Cells hold
squared magnitudes, whose order is the order of the magnitudes. -/
theorem nonMaximaSuppression_spec (w h : Nat) (G s : List Nat) (x y : Nat)
    (hx : x < w) (hy : y < h) :
    ((1 ≤ x ∧ x + 1 < w ∧ 1 ≤ y ∧ y + 1 < h) →
      (s.getD (x + y * w) 0 = 1 →
        (nonMaximaSuppression w h G s G).getD (x + y * w) 0 =
          if G.getD ((x - 1) + y * w) 0 ≥ G.getD (x + y * w) 0 ∨
              G.getD ((x + 1) + y * w) 0 > G.getD (x + y * w) 0
          then 0 else G.getD (x + y * w) 0) ∧
      (s.getD (x + y * w) 0 = 2 →
        (nonMaximaSuppression w h G s G).getD (x + y * w) 0 =
          if G.getD ((x + 1) + (y - 1) * w) 0 ≥ G.getD (x + y * w) 0 ∨
              G.getD ((x - 1) + (y + 1) * w) 0 > G.getD (x + y * w) 0
          then 0 else G.getD (x + y * w) 0) ∧
      (s.getD (x + y * w) 0 = 3 →
        (nonMaximaSuppression w h G s G).getD (x + y * w) 0 =
          if G.getD (x + (y - 1) * w) 0 ≥ G.getD (x + y * w) 0 ∨
              G.getD (x + (y + 1) * w) 0 > G.getD (x + y * w) 0
          then 0 else G.getD (x + y * w) 0) ∧
      (s.getD (x + y * w) 0 = 4 →
        (nonMaximaSuppression w h G s G).getD (x + y * w) 0 =
          if G.getD ((x - 1) + (y - 1) * w) 0 ≥ G.getD (x + y * w) 0 ∨
              G.getD ((x + 1) + (y + 1) * w) 0 > G.getD (x + y * w) 0
          then 0 else G.getD (x + y * w) 0) ∧
      ((s.getD (x + y * w) 0 ≠ 1 ∧ s.getD (x + y * w) 0 ≠ 2 ∧ s.getD (x + y * w) 0 ≠ 3 ∧
          s.getD (x + y * w) 0 ≠ 4) →
        (nonMaximaSuppression w h G s G).getD (x + y * w) 0 = 0)) ∧
    ((x = 0 ∨ x + 1 = w ∨ y = 0 ∨ y + 1 = h) →
      (nonMaximaSuppression w h G s G).getD (x + y * w) 0 = G.getD (x + y * w) 0) := by
  constructor
  · rintro ⟨hx0, hx1, hy0, hy1⟩
    rw [nonMaximaSuppression_visit w h G s G hx0 (by omega) hy0 (by omega)]
    have hw : 1 ≤ w := by omega
    refine ⟨?_, ?_, ?_, ?_, ?_⟩
    · intro hs
      unfold suppressZero
      rw [hs, idx_left y w hx0, show x + y * w + 1 = (x + 1) + y * w by omega]
      simp only [decide_eq_true_eq]
    · intro hs
      unfold suppressZero
      rw [hs, idx_upright x hy0 hw, idx_downleft y hx0 hw]
      simp only [decide_eq_true_eq]
    · intro hs
      unfold suppressZero
      rw [hs, idx_up x w hy0, idx_down x y w]
      simp only [decide_eq_true_eq]
    · intro hs
      unfold suppressZero
      rw [hs, idx_upleft w hx0 hy0, idx_downright x y w]
      simp only [decide_eq_true_eq]
    · rintro ⟨h1, h2, h3, h4⟩
      have hz : suppressZero w G s (x + y * w) = true := by
        unfold suppressZero
        split <;> first | contradiction | rfl
      rw [if_pos hz]
  · intro hb
    apply nonMaximaSuppression_frame
    intro a b ha0 ha1 hb0 hb1 hab
    have := idx_inj hx (show a < w by omega) hab
    omega

/-- Witness for C11: a 3 x 3 field whose centre has sector 1 and a larger left
neighbour. -/
theorem nonMaximaSuppression_spec_witness :
    (nonMaximaSuppression 3 3 [0, 0, 0, 9, 4, 0, 0, 0, 0] [0, 0, 0, 0, 1, 0, 0, 0, 0]
      [0, 0, 0, 9, 4, 0, 0, 0, 0]).getD (1 + 1 * 3) 0 = 0 :=
  ((nonMaximaSuppression_spec 3 3 [0, 0, 0, 9, 4, 0, 0, 0, 0] [0, 0, 0, 0, 1, 0, 0, 0, 0] 1 1
    (by decide) (by decide)).1 (by decide)).1 (by decide)

/-- C20: for every `G` and `S` and every two interior pixels `p` and `q` that have the same
sector `k` in 1..4 and are adjacent along that sector's comparison axis (`q = p + 1`,
`p + w - 1`, `p + w` or `p + w + 1` for `k` = 1, 2, 3, 4), at most one of `M[p]`, `M[q]` is
non-zero; when `G[p] = G[q]` it is `q` that is zeroed. -/
theorem nonMaximaSuppression_thin (w h : Nat) (G s : List Nat) (x y x' y' k : Nat)
    (hx0 : 1 ≤ x) (hx1 : x + 1 < w) (hy0 : 1 ≤ y) (hy1 : y + 1 < h)
    (hx0' : 1 ≤ x') (hx1' : x' + 1 < w) (hy0' : 1 ≤ y') (hy1' : y' + 1 < h)
    (hsp : s.getD (x + y * w) 0 = k) (hsq : s.getD (x' + y' * w) 0 = k)
    (hadj : (k = 1 ∧ x' + y' * w = x + y * w + 1) ∨
      (k = 2 ∧ x' + y' * w = x + y * w + w - 1) ∨
      (k = 3 ∧ x' + y' * w = x + y * w + w) ∨
      (k = 4 ∧ x' + y' * w = x + y * w + w + 1)) :
    ((nonMaximaSuppression w h G s G).getD (x + y * w) 0 = 0 ∨
        (nonMaximaSuppression w h G s G).getD (x' + y' * w) 0 = 0) ∧
      (G.getD (x + y * w) 0 = G.getD (x' + y' * w) 0 →
        (nonMaximaSuppression w h G s G).getD (x' + y' * w) 0 = 0) := by
  rw [nonMaximaSuppression_visit w h G s G hx0 (by omega) hy0 (by omega),
    nonMaximaSuppression_visit w h G s G hx0' (by omega) hy0' (by omega)]
  have key : G.getD (x' + y' * w) 0 > G.getD (x + y * w) 0 →
      suppressZero w G s (x + y * w) = true := by
    intro hgt
    unfold suppressZero
    rcases hadj with ⟨hk, hq⟩ | ⟨hk, hq⟩ | ⟨hk, hq⟩ | ⟨hk, hq⟩
    · rw [hsp, hk]
      have e : x + y * w + 1 = x' + y' * w := by omega
      simp only [e, decide_eq_true_eq]
      exact Or.inr hgt
    · rw [hsp, hk]
      have e : x + y * w + (w - 1) = x' + y' * w := by omega
      simp only [e, decide_eq_true_eq]
      exact Or.inr hgt
    · rw [hsp, hk]
      have e : x + y * w + w = x' + y' * w := by omega
      simp only [e, decide_eq_true_eq]
      exact Or.inr hgt
    · rw [hsp, hk]
      have e : x + y * w + (w + 1) = x' + y' * w := by omega
      simp only [e, decide_eq_true_eq]
      exact Or.inr hgt
  have key' : G.getD (x + y * w) 0 ≥ G.getD (x' + y' * w) 0 →
      suppressZero w G s (x' + y' * w) = true := by
    intro hge
    unfold suppressZero
    rcases hadj with ⟨hk, hq⟩ | ⟨hk, hq⟩ | ⟨hk, hq⟩ | ⟨hk, hq⟩
    · rw [hsq, hk]
      have e : x' + y' * w - 1 = x + y * w := by omega
      simp only [e, decide_eq_true_eq]
      exact Or.inl hge
    · rw [hsq, hk]
      have e : x' + y' * w - (w - 1) = x + y * w := by omega
      simp only [e, decide_eq_true_eq]
      exact Or.inl hge
    · rw [hsq, hk]
      have e : x' + y' * w - w = x + y * w := by omega
      simp only [e, decide_eq_true_eq]
      exact Or.inl hge
    · rw [hsq, hk]
      have e : x' + y' * w - (w + 1) = x + y * w := by omega
      simp only [e, decide_eq_true_eq]
      exact Or.inl hge
  constructor
  · by_cases hgt : G.getD (x' + y' * w) 0 > G.getD (x + y * w) 0
    · left; rw [if_pos (key hgt)]
    · right; rw [if_pos (key' (by omega))]
  · intro heq
    rw [if_pos (key' (by omega))]

/-- Witness for C20: two horizontally adjacent interior pixels of sector 1 with equal
magnitudes in a 4 x 3 field; the right one is zeroed. -/
theorem nonMaximaSuppression_thin_witness :
    (nonMaximaSuppression 4 3 [0, 0, 0, 0, 0, 9, 9, 0, 0, 0, 0, 0]
      [0, 0, 0, 0, 0, 1, 1, 0, 0, 0, 0, 0]
      [0, 0, 0, 0, 0, 9, 9, 0, 0, 0, 0, 0]).getD (2 + 1 * 4) 0 = 0 :=
  (nonMaximaSuppression_thin 4 3 [0, 0, 0, 0, 0, 9, 9, 0, 0, 0, 0, 0]
    [0, 0, 0, 0, 0, 1, 1, 0, 0, 0, 0, 0] 1 1 2 1 1
    (by decide) (by decide) (by decide) (by decide) (by decide) (by decide) (by decide)
    (by decide) (by decide) (by decide) (by decide)).2 (by decide)

/-! ## Claims on the Sobel stage -/

theorem sobelConvolve_eq_spec (w : Nat) (dst : List Nat) (x y : Nat) :
    sobelConvolve w dst x y = (specDx w dst x y, specDy w dst x y) := by
  simp only [sobelConvolve, forLoop, Gx, Gy, List.range', List.foldl, specDx, specDy, pixelAt]
  simp
  constructor <;> ring

theorem sobel_length (w h : Nat) (dst G s : List Nat) :
    (sobel w h dst G s).1.length = G.length ∧ (sobel w h dst G s).2.length = s.length := by
  rw [sobel_eq]
  exact ⟨pixelLoop_length (writesOwnCell_set w _) _ _ _ _ _,
    pixelLoop_length (writesOwnCell_set w _) _ _ _ _ _⟩

/-- The magnitude and sector cells of an interior pixel after the Sobel stage. -/
theorem sobel_getD (w h : Nat) (dst G s : List Nat) {x y : Nat} (hx0 : 1 ≤ x) (hx1 : x + 1 < w)
    (hy0 : 1 ≤ y) (hy1 : y + 1 < h) :
    (x + y * w < G.length →
        (sobel w h dst G s).1.getD (x + y * w) 0 = sobelMagnitude w dst x y) ∧
      (x + y * w < s.length →
        (sobel w h dst G s).2.getD (x + y * w) 0 = sobelSector w dst x y) := by
  rw [sobel_eq]
  exact ⟨fun hG => pixelLoop_set_getD (fun x y => sobelMagnitude w dst x y) G hx0 (by omega)
      (Nat.sub_le w 1) hy0 (by omega) hG,
    fun hs => pixelLoop_set_getD (fun x y => sobelSector w dst x y) s hx0 (by omega)
      (Nat.sub_le w 1) hy0 (by omega) hs⟩

/-- Cells that are not interior pixels are not written by the Sobel stage. -/
theorem sobel_frame (w h : Nat) (dst G s : List Nat) (i : Nat)
    (hne : ∀ x y, 1 ≤ x → x < w - 1 → 1 ≤ y → y < h - 1 → i ≠ x + y * w) :
    (sobel w h dst G s).1.getD i 0 = G.getD i 0 ∧
      (sobel w h dst G s).2.getD i 0 = s.getD i 0 := by
  rw [sobel_eq]
  exact ⟨pixelLoop_frame (writesOwnCell_set w _) _ _ _ _ _ _ hne,
    pixelLoop_frame (writesOwnCell_set w _) _ _ _ _ _ _ hne⟩

/-- C12: for every smoothed image and every interior pixel, the two Sobel sums are
`dx` (right column minus left column, weights 1, 2, 1) and `dy` (top row minus bottom
row, weights 1, 2, 1); `G` is 0 when `dx = 0` or `dy = 0`, and otherwise `G` is the
non-negative number with `G * G = dx * dx + dy * dy`. The cell of `G_` holds the square,
so `G` is the real square root of the cell. -/
theorem sobel_magnitude_spec (w h : Nat) (dst G s : List Nat) (x y : Nat)
    (hx0 : 1 ≤ x) (hx1 : x + 1 < w) (hy0 : 1 ≤ y) (hy1 : y + 1 < h)
    (hG : G.length = w * h) :
    sobelConvolve w dst x y = (specDx w dst x y, specDy w dst x y) ∧
      ((specDx w dst x y = 0 ∨ specDy w dst x y = 0) →
        (sobel w h dst G s).1.getD (x + y * w) 0 = 0 ∧
          Real.sqrt (((sobel w h dst G s).1.getD (x + y * w) 0 : Nat) : ℝ) = 0) ∧
      (¬ (specDx w dst x y = 0 ∨ specDy w dst x y = 0) →
        (((sobel w h dst G s).1.getD (x + y * w) 0 : Nat) : Int)
            = specDx w dst x y * specDx w dst x y + specDy w dst x y * specDy w dst x y ∧
          0 ≤ Real.sqrt (((sobel w h dst G s).1.getD (x + y * w) 0 : Nat) : ℝ) ∧
          Real.sqrt (((sobel w h dst G s).1.getD (x + y * w) 0 : Nat) : ℝ)
              * Real.sqrt (((sobel w h dst G s).1.getD (x + y * w) 0 : Nat) : ℝ)
            = (specDx w dst x y : ℝ) * (specDx w dst x y : ℝ)
              + (specDy w dst x y : ℝ) * (specDy w dst x y : ℝ)) := by
  have hcell := (sobel_getD w h dst G s hx0 hx1 hy0 hy1).1
    (by rw [hG]; exact idx_lt (by omega) (by omega))
  have hconv := sobelConvolve_eq_spec w dst x y
  refine ⟨hconv, ?_, ?_⟩
  · intro hz
    have h0 : (sobel w h dst G s).1.getD (x + y * w) 0 = 0 := by
      rw [hcell]
      unfold sobelMagnitude
      rw [hconv, if_pos hz]
    rw [h0]
    simp
  · intro hnz
    have hsq : (((sobel w h dst G s).1.getD (x + y * w) 0 : Nat) : Int)
        = specDx w dst x y * specDx w dst x y + specDy w dst x y * specDy w dst x y := by
      rw [hcell]
      unfold sobelMagnitude
      rw [hconv, if_neg hnz]
      apply Int.toNat_of_nonneg
      nlinarith [mul_self_nonneg (specDx w dst x y), mul_self_nonneg (specDy w dst x y)]
    refine ⟨hsq, Real.sqrt_nonneg _, ?_⟩
    rw [Real.mul_self_sqrt (Nat.cast_nonneg _)]
    have : ((((sobel w h dst G s).1.getD (x + y * w) 0 : Nat) : Int) : ℝ)
        = ((specDx w dst x y * specDx w dst x y + specDy w dst x y * specDy w dst x y : Int) : ℝ) :=
      by rw [hsq]
    push_cast at this
    exact this

/-- Witness for C12: the centre of a 3 x 3 image with `dx = 1` and `dy = 3`. -/
theorem sobel_magnitude_spec_witness :
    (((sobel 3 3 [3, 0, 0, 0, 0, 2, 0, 0, 0] (List.replicate 9 0)
        (List.replicate 9 0)).1.getD (1 + 1 * 3) 0 : Nat) : Int)
      = specDx 3 [3, 0, 0, 0, 0, 2, 0, 0, 0] 1 1 * specDx 3 [3, 0, 0, 0, 0, 2, 0, 0, 0] 1 1
        + specDy 3 [3, 0, 0, 0, 0, 2, 0, 0, 0] 1 1 * specDy 3 [3, 0, 0, 0, 0, 2, 0, 0, 0] 1 1 :=
  ((sobel_magnitude_spec 3 3 [3, 0, 0, 0, 0, 2, 0, 0, 0] (List.replicate 9 0)
    (List.replicate 9 0) 1 1 (by decide) (by decide) (by decide) (by decide)
    (by decide)).2.2 (by decide)).1

/-! ## Claims on the smoothing stage -/

theorem specSmoothSum_le (w : Nat) (src kernel : List Nat) (off x y : Nat)
    (hb : ∀ i, src.getD i 0 ≤ 255) :
    specSmoothSum w src kernel off x y
      ≤ ((List.range (2 * off + 1)).map (fun j =>
          ((List.range (2 * off + 1)).map (fun i =>
            kernel.getD (j * (2 * off + 1) + i) 0 * 255)).sum)).sum := by
  unfold specSmoothSum
  apply List.sum_le_sum
  intro j _
  apply List.sum_le_sum
  intro i _
  exact Nat.mul_le_mul_left _ (hb _)

/-- The quotient of the smoothing sum by the divisor is a byte. -/
theorem specSmoothSum_div_le (w : Nat) (src : List Nat) (k : NoiseFilter) (x y : Nat)
    (hb : ∀ i, src.getD i 0 ≤ 255) :
    specSmoothSum w src (kernelParams k).2.1 (kernelParams k).1 x y / (kernelParams k).2.2
      ≤ 255 := by
  have hle := specSmoothSum_le w src (kernelParams k).2.1 (kernelParams k).1 x y hb
  cases k
  · rw [kernelParams_Gaus3x3] at hle ⊢
    have hsum : ((List.range (2 * 1 + 1)).map (fun j =>
        ((List.range (2 * 1 + 1)).map (fun i =>
          Gaus3x3.getD (j * (2 * 1 + 1) + i) 0 * 255)).sum)).sum = 16 * 255 := by decide
    simp only [] at hle ⊢
    rw [hsum] at hle
    unfold Gaus3x3Div
    omega
  · rw [kernelParams_Gaus5x5] at hle ⊢
    have hsum : ((List.range (2 * 2 + 1)).map (fun j =>
        ((List.range (2 * 2 + 1)).map (fun i =>
          Gaus5x5.getD (j * (2 * 2 + 1) + i) 0 * 255)).sum)).sum = 159 * 255 := by decide
    simp only [] at hle ⊢
    rw [hsum] at hle
    unfold Gaus5x5Div
    omega

/-- The byte computed by the kernel loops, which read the kernel column by column, is the
row-major sum of the claim divided by the divisor: both kernels are symmetric. -/
theorem gaussianPixel_eq_spec (w : Nat) (src : List Nat) (k : NoiseFilter) (x y : Nat) :
    gaussianPixel w src (kernelParams k).2.1 (kernelParams k).2.2 (kernelParams k).1 x y
      = (specSmoothSum w src (kernelParams k).2.1 (kernelParams k).1 x y
          / (kernelParams k).2.2) % 256 := by
  cases k
  · rw [kernelParams_Gaus3x3]
    simp only [gaussianPixel, specSmoothSum, forLoop, Gaus3x3, Gaus3x3Div, List.range',
      List.foldl]
    simp [List.range, List.range.loop]
    congr 2
    ring
  · rw [kernelParams_Gaus5x5]
    simp only [gaussianPixel, specSmoothSum, forLoop, Gaus5x5, Gaus5x5Div, List.range',
      List.foldl]
    simp [List.range, List.range.loop]
    congr 2
    ring

/-- C13: for both kernels and every pixel at least the half width away from all four
borders, the smoothed byte is the truncating integer quotient of the row-major weighted sum
`kernel[row ky][column kx] * src[x + kx, y + ky]` by the divisor, 16 or 159; for a source of
bytes this quotient lies in 0..255, so the conversion to a byte does not wrap. -/
theorem smoothed_value (c : Canny) (dst src : List Nat) (k : NoiseFilter) (x y : Nat)
    (hx0 : (kernelParams k).1 ≤ x) (hx1 : x + (kernelParams k).1 < c.w_)
    (hy0 : (kernelParams k).1 ≤ y) (hy1 : y + (kernelParams k).1 < c.h_)
    (hlen : dst.length = c.w_ * c.h_) (hb : ∀ i, src.getD i 0 ≤ 255) :
    ((kernelParams NoiseFilter.Gaus3x3).2.2 = 16 ∧
        (kernelParams NoiseFilter.Gaus5x5).2.2 = 159) ∧
      (c.smoothed dst src k).getD (x + y * c.w_) 0
        = specSmoothSum c.w_ src (kernelParams k).2.1 (kernelParams k).1 x y
            / (kernelParams k).2.2 ∧
      specSmoothSum c.w_ src (kernelParams k).2.1 (kernelParams k).1 x y
          / (kernelParams k).2.2 ≤ 255 := by
  have hq := specSmoothSum_div_le c.w_ src k x y hb
  refine ⟨⟨rfl, rfl⟩, ?_, hq⟩
  unfold Canny.smoothed
  simp only []
  rw [gaussianFilter_getD _ _ _ _ _ _ _ (show x < c.w_ by omega) (show y < c.h_ by omega) hlen]
  unfold gaussianValue
  rw [if_neg (by omega), gaussianPixel_eq_spec]
  exact Nat.mod_eq_of_lt (by omega)

/-- Witness for C13: the centre of a 3 x 3 image of bytes with the 3 x 3 kernel. -/
theorem smoothed_value_witness :
    ((Canny.new 3 3).smoothed (List.replicate 9 0) [255, 0, 0, 255, 16, 0, 0, 0, 7]
        NoiseFilter.Gaus3x3).getD (1 + 1 * 3) 0
      = specSmoothSum 3 [255, 0, 0, 255, 16, 0, 0, 0, 7] Gaus3x3 1 1 1 / 16 :=
  (smoothed_value (Canny.new 3 3) (List.replicate 9 0) [255, 0, 0, 255, 16, 0, 0, 0, 7]
    NoiseFilter.Gaus3x3 1 1 (by decide) (by decide) (by decide) (by decide) (by decide)
    (by
      intro i
      by_cases hi : i < 9
      · interval_cases i <;> simp
      · rw [getD_of_length_le _ (by simp; omega)]
        omega)).2.1

/-! ## Direction sectors -/

/-- The sign test on integers is the sign of `a + b * sqrt 2`. -/
theorem sqrt2Neg_iff (a b : Int) :
    sqrt2Neg a b = true ↔ (a : ℝ) + (b : ℝ) * Real.sqrt 2 < 0 := by
  have hr0 : (0 : ℝ) < Real.sqrt 2 := Real.sqrt_pos.mpr (by norm_num)
  have hr2 : Real.sqrt 2 * Real.sqrt 2 = 2 := Real.mul_self_sqrt (by norm_num)
  unfold sqrt2Neg
  by_cases h1 : 0 ≤ a ∧ 0 ≤ b
  · rw [if_pos h1]
    have ha : (0 : ℝ) ≤ a := by exact_mod_cast h1.1
    have hb : (0 : ℝ) ≤ b := by exact_mod_cast h1.2
    constructor
    · intro h; exact absurd h (by decide)
    · intro h; nlinarith [mul_nonneg hb hr0.le]
  · rw [if_neg h1]
    by_cases h2 : a ≤ 0 ∧ b ≤ 0
    · rw [if_pos h2]
      have ha : (a : ℝ) ≤ 0 := by exact_mod_cast h2.1
      have hb : (b : ℝ) ≤ 0 := by exact_mod_cast h2.2
      refine ⟨fun _ => ?_, fun _ => rfl⟩
      rcases lt_or_le a 0 with h3 | h3
      · have : (a : ℝ) < 0 := by exact_mod_cast h3
        nlinarith [mul_nonneg (neg_nonneg.mpr hb) hr0.le]
      · have h4 : b < 0 := by
          by_contra h5
          exact h1 ⟨h3, by omega⟩
        have : (b : ℝ) < 0 := by exact_mod_cast h4
        nlinarith [mul_pos (neg_pos.mpr this) hr0]
    · rw [if_neg h2]
      by_cases h3 : a < 0
      · rw [if_pos h3, decide_eq_true_eq]
        have hb : 0 < b := by
          by_contra h5
          exact h2 ⟨by omega, by omega⟩
        have ha' : (a : ℝ) < 0 := by exact_mod_cast h3
        have hb' : (0 : ℝ) < b := by exact_mod_cast hb
        constructor
        · intro h
          have hR : (2 * b * b : ℝ) < a * a := by exact_mod_cast h
          by_contra hge
          push_neg at hge
          have h6 : -(a : ℝ) ≤ b * Real.sqrt 2 := by linarith
          have h7 : (-(a : ℝ)) * (-(a : ℝ)) ≤ (b * Real.sqrt 2) * (b * Real.sqrt 2) :=
            mul_self_le_mul_self (by linarith) h6
          nlinarith
        · intro h
          have h6 : (b : ℝ) * Real.sqrt 2 < -(a : ℝ) := by linarith
          have h7 : (b * Real.sqrt 2) * (b * Real.sqrt 2) < (-(a : ℝ)) * (-(a : ℝ)) :=
            mul_self_lt_mul_self (by positivity) h6
          have hR : (2 * b * b : ℝ) < a * a := by nlinarith
          exact_mod_cast hR
      · rw [if_neg h3, decide_eq_true_eq]
        have ha : 0 < a := by
          by_contra h5
          exact h2 ⟨by omega, by
            by_contra h6
            exact h1 ⟨by omega, by omega⟩⟩
        have hb : b < 0 := by
          by_contra h5
          exact h1 ⟨by omega, by omega⟩
        have ha' : (0 : ℝ) < a := by exact_mod_cast ha
        have hb' : (b : ℝ) < 0 := by exact_mod_cast hb
        constructor
        · intro h
          have hR : (a * a : ℝ) < 2 * b * b := by exact_mod_cast h
          by_contra hge
          push_neg at hge
          have h6 : -(b : ℝ) * Real.sqrt 2 ≤ a := by linarith
          have h7 : (-(b : ℝ) * Real.sqrt 2) * (-(b : ℝ) * Real.sqrt 2) ≤ (a : ℝ) * a :=
            mul_self_le_mul_self (by nlinarith) h6
          nlinarith
        · intro h
          have h6 : (a : ℝ) < -(b : ℝ) * Real.sqrt 2 := by linarith
          have h7 : (a : ℝ) * a < (-(b : ℝ) * Real.sqrt 2) * (-(b : ℝ) * Real.sqrt 2) :=
            mul_self_lt_mul_self ha'.le h6
          have hR : (a * a : ℝ) < 2 * b * b := by nlinarith
          exact_mod_cast hR

/-- The chain of bin tests never reaches its last `else`, whatever the eight comparisons
`theta < 22.5`, ..., `theta < -157.5` answer. -/
theorem segment_chain_total :
    ∀ a1 a2 a3 a4 b1 b2 b3 b4 : Bool,
      (if (a1 && !b1) || b4 || !a4 then 1
        else if (!a1 && a2) || (!b4 && b3) then 2
        else if (!a2 && a3) || (!b3 && b2) then 3
        else if (!b2 && b1) || (!a3 && a4) then 4
        else 0) ≠ 0 := by
  decide

theorem segment_ne_zero (cx cy : Int) : segment cx cy ≠ 0 :=
  segment_chain_total (thetaLt cx cy Bound.p22) (thetaLt cx cy Bound.p67)
    (thetaLt cx cy Bound.p112) (thetaLt cx cy Bound.p157) (thetaLt cx cy Bound.n22)
    (thetaLt cx cy Bound.n67) (thetaLt cx cy Bound.n112) (thetaLt cx cy Bound.n157)

theorem segment_cases (cx cy : Int) :
    segment cx cy = 1 ∨ segment cx cy = 2 ∨ segment cx cy = 3 ∨ segment cx cy = 4 := by
  have h0 := segment_ne_zero cx cy
  unfold segment at h0 ⊢
  simp only [] at h0 ⊢
  split_ifs at h0 ⊢ <;> simp at h0 ⊢

theorem segmentOfTheta_cases (theta : ℚ) :
    segmentOfTheta theta = 1 ∨ segmentOfTheta theta = 2 ∨ segmentOfTheta theta = 3 ∨
      segmentOfTheta theta = 4 := by
  unfold segmentOfTheta
  split_ifs with h1 h2 h3 h4
  · exact Or.inl rfl
  · exact Or.inr (Or.inl rfl)
  · exact Or.inr (Or.inr (Or.inl rfl))
  · exact Or.inr (Or.inr (Or.inr rfl))
  · exfalso
    simp only [not_or, not_and, not_le, not_lt, gt_iff_lt, ge_iff_le] at h1 h2 h3 h4
    obtain ⟨h1a, h1b, h1c⟩ := h1
    obtain ⟨h2a, h2b⟩ := h2
    obtain ⟨h3a, h3b⟩ := h3
    obtain ⟨h4a, h4b⟩ := h4
    rcases le_or_lt theta 22.5 with h | h
    · have := h1a h
      rcases le_or_lt (-67.5) theta with h' | h'
      · have := h4a h'
        linarith
      · rcases le_or_lt (-112.5) theta with h'' | h''
        · have := h3b h''
          linarith
        · have := h2b h1b
          linarith
    · have := h2a h
      have := h3a this
      have := h4b this
      linarith

/-- Every angle of sector `k` lies within 22.5 degrees of a centre of that sector. -/
theorem segmentOfTheta_bins (theta : ℚ) (hlo : -180 ≤ theta) (hhi : theta ≤ 180) :
    (segmentOfTheta theta = 1 →
        |theta| ≤ 22.5 ∨ |theta - 180| ≤ 22.5 ∨ |theta + 180| ≤ 22.5) ∧
      (segmentOfTheta theta = 2 → |theta - 45| ≤ 22.5 ∨ |theta + 135| ≤ 22.5) ∧
      (segmentOfTheta theta = 3 → |theta - 90| ≤ 22.5 ∨ |theta + 90| ≤ 22.5) ∧
      (segmentOfTheta theta = 4 → |theta - 135| ≤ 22.5 ∨ |theta + 45| ≤ 22.5) := by
  simp only [abs_le]
  unfold segmentOfTheta
  refine ⟨?_, ?_, ?_, ?_⟩
  · intro hseg
    split_ifs at hseg with h1 h2 h3 h4 <;> try (exact absurd hseg (by decide))
    rcases h1 with ⟨ha, hb⟩ | ha | ha
    · exact Or.inl ⟨by linarith, by linarith⟩
    · exact Or.inr (Or.inr ⟨by linarith, by linarith⟩)
    · exact Or.inr (Or.inl ⟨by linarith, by linarith⟩)
  · intro hseg
    split_ifs at hseg with h1 h2 h3 h4 <;> try (exact absurd hseg (by decide))
    rcases h2 with ⟨ha, hb⟩ | ⟨ha, hb⟩
    · exact Or.inl ⟨by linarith, by linarith⟩
    · exact Or.inr ⟨by linarith, by linarith⟩
  · intro hseg
    split_ifs at hseg with h1 h2 h3 h4 <;> try (exact absurd hseg (by decide))
    rcases h3 with ⟨ha, hb⟩ | ⟨ha, hb⟩
    · exact Or.inl ⟨by linarith, by linarith⟩
    · exact Or.inr ⟨by linarith, by linarith⟩
  · intro hseg
    split_ifs at hseg with h1 h2 h3 h4 <;> try (exact absurd hseg (by decide))
    rcases h4 with ⟨ha, hb⟩ | ⟨ha, hb⟩
    · exact Or.inr ⟨by linarith, by linarith⟩
    · exact Or.inl ⟨by linarith, by linarith⟩

/-- C14: for every angle `theta` in degrees with `-180 <= theta <= 180` one of the four bin
tests succeeds, so the `error` branch is unreachable; an angle of sector 1, 2, 3, 4 lies
within 22.5 degrees of 0 or 180 or -180, of 45 or -135, of 90 or -90, of 135 or -45, and an
angle strictly within 22.5 degrees of such a centre gets that sector; every interior pixel
with `dx != 0` and `dy != 0` receives a sector in {1, 2, 3, 4}. -/
theorem sector_total (theta : ℚ) (hlo : -180 ≤ theta) (hhi : theta ≤ 180)
    (w h : Nat) (dst G s : List Nat) (x y : Nat)
    (hx0 : 1 ≤ x) (hx1 : x + 1 < w) (hy0 : 1 ≤ y) (hy1 : y + 1 < h)
    (hs : s.length = w * h)
    (hdx : specDx w dst x y ≠ 0) (hdy : specDy w dst x y ≠ 0) :
    (segmentOfTheta theta = 1 ∨ segmentOfTheta theta = 2 ∨ segmentOfTheta theta = 3 ∨
        segmentOfTheta theta = 4) ∧
      ((segmentOfTheta theta = 1 →
          |theta| ≤ 22.5 ∨ |theta - 180| ≤ 22.5 ∨ |theta + 180| ≤ 22.5) ∧
        (segmentOfTheta theta = 2 → |theta - 45| ≤ 22.5 ∨ |theta + 135| ≤ 22.5) ∧
        (segmentOfTheta theta = 3 → |theta - 90| ≤ 22.5 ∨ |theta + 90| ≤ 22.5) ∧
        (segmentOfTheta theta = 4 → |theta - 135| ≤ 22.5 ∨ |theta + 45| ≤ 22.5)) ∧
      ((|theta| < 22.5 ∨ |theta - 180| < 22.5 ∨ |theta + 180| < 22.5 →
          segmentOfTheta theta = 1) ∧
        (|theta - 45| < 22.5 ∨ |theta + 135| < 22.5 → segmentOfTheta theta = 2) ∧
        (|theta - 90| < 22.5 ∨ |theta + 90| < 22.5 → segmentOfTheta theta = 3) ∧
        (|theta - 135| < 22.5 ∨ |theta + 45| < 22.5 → segmentOfTheta theta = 4)) ∧
      ((sobel w h dst G s).2.getD (x + y * w) 0 = segment (specDx w dst x y) (specDy w dst x y) ∧
        ((sobel w h dst G s).2.getD (x + y * w) 0 = 1 ∨
          (sobel w h dst G s).2.getD (x + y * w) 0 = 2 ∨
          (sobel w h dst G s).2.getD (x + y * w) 0 = 3 ∨
          (sobel w h dst G s).2.getD (x + y * w) 0 = 4)) := by
  have hbins := segmentOfTheta_bins theta hlo hhi
  have htot := segmentOfTheta_cases theta
  obtain ⟨hb1, hb2, hb3, hb4⟩ := hbins
  refine ⟨htot, ⟨hb1, hb2, hb3, hb4⟩, ⟨?_, ?_, ?_, ?_⟩, ?_⟩
  · intro hin
    rcases htot with h1 | h2 | h3 | h4
    · exact h1
    · exfalso
      have := hb2 h2
      simp only [abs_le, abs_lt] at hin this
      rcases hin with ⟨a, b⟩ | ⟨a, b⟩ | ⟨a, b⟩ <;> rcases this with ⟨c, d⟩ | ⟨c, d⟩ <;> linarith
    · exfalso
      have := hb3 h3
      simp only [abs_le, abs_lt] at hin this
      rcases hin with ⟨a, b⟩ | ⟨a, b⟩ | ⟨a, b⟩ <;> rcases this with ⟨c, d⟩ | ⟨c, d⟩ <;> linarith
    · exfalso
      have := hb4 h4
      simp only [abs_le, abs_lt] at hin this
      rcases hin with ⟨a, b⟩ | ⟨a, b⟩ | ⟨a, b⟩ <;> rcases this with ⟨c, d⟩ | ⟨c, d⟩ <;> linarith
  · intro hin
    rcases htot with h1 | h2 | h3 | h4
    · exfalso
      have := hb1 h1
      simp only [abs_le, abs_lt] at hin this
      rcases hin with ⟨a, b⟩ | ⟨a, b⟩ <;> rcases this with ⟨c, d⟩ | ⟨c, d⟩ | ⟨c, d⟩ <;> linarith
    · exact h2
    · exfalso
      have := hb3 h3
      simp only [abs_le, abs_lt] at hin this
      rcases hin with ⟨a, b⟩ | ⟨a, b⟩ <;> rcases this with ⟨c, d⟩ | ⟨c, d⟩ <;> linarith
    · exfalso
      have := hb4 h4
      simp only [abs_le, abs_lt] at hin this
      rcases hin with ⟨a, b⟩ | ⟨a, b⟩ <;> rcases this with ⟨c, d⟩ | ⟨c, d⟩ <;> linarith
  · intro hin
    rcases htot with h1 | h2 | h3 | h4
    · exfalso
      have := hb1 h1
      simp only [abs_le, abs_lt] at hin this
      rcases hin with ⟨a, b⟩ | ⟨a, b⟩ <;> rcases this with ⟨c, d⟩ | ⟨c, d⟩ | ⟨c, d⟩ <;> linarith
    · exfalso
      have := hb2 h2
      simp only [abs_le, abs_lt] at hin this
      rcases hin with ⟨a, b⟩ | ⟨a, b⟩ <;> rcases this with ⟨c, d⟩ | ⟨c, d⟩ <;> linarith
    · exact h3
    · exfalso
      have := hb4 h4
      simp only [abs_le, abs_lt] at hin this
      rcases hin with ⟨a, b⟩ | ⟨a, b⟩ <;> rcases this with ⟨c, d⟩ | ⟨c, d⟩ <;> linarith
  · intro hin
    rcases htot with h1 | h2 | h3 | h4
    · exfalso
      have := hb1 h1
      simp only [abs_le, abs_lt] at hin this
      rcases hin with ⟨a, b⟩ | ⟨a, b⟩ <;> rcases this with ⟨c, d⟩ | ⟨c, d⟩ | ⟨c, d⟩ <;> linarith
    · exfalso
      have := hb2 h2
      simp only [abs_le, abs_lt] at hin this
      rcases hin with ⟨a, b⟩ | ⟨a, b⟩ <;> rcases this with ⟨c, d⟩ | ⟨c, d⟩ <;> linarith
    · exfalso
      have := hb3 h3
      simp only [abs_le, abs_lt] at hin this
      rcases hin with ⟨a, b⟩ | ⟨a, b⟩ <;> rcases this with ⟨c, d⟩ | ⟨c, d⟩ <;> linarith
    · exact h4
  · have hcell : (sobel w h dst G s).2.getD (x + y * w) 0
        = segment (specDx w dst x y) (specDy w dst x y) := by
      rw [(sobel_getD w h dst G s hx0 hx1 hy0 hy1).2
        (by rw [hs]; exact idx_lt (by omega) (by omega))]
      unfold sobelSector
      rw [sobelConvolve_eq_spec, if_neg (by simp [hdx, hdy])]
    rw [hcell]
    exact ⟨rfl, segment_cases _ _⟩

/-- Witness for C14: the angle 30 degrees, and the centre of a 3 x 3 image with `dx = 1`
and `dy = 3`, whose sector is 3. -/
theorem sector_total_witness :
    segmentOfTheta 30 = 2 ∧
      (sobel 3 3 [3, 0, 0, 0, 0, 2, 0, 0, 0] (List.replicate 9 0)
        (List.replicate 9 0)).2.getD (1 + 1 * 3) 0
        = segment (specDx 3 [3, 0, 0, 0, 0, 2, 0, 0, 0] 1 1)
            (specDy 3 [3, 0, 0, 0, 0, 2, 0, 0, 0] 1 1) :=
  ⟨(sector_total 30 (by norm_num) (by norm_num) 3 3 [3, 0, 0, 0, 0, 2, 0, 0, 0]
    (List.replicate 9 0) (List.replicate 9 0) 1 1 (by decide) (by decide) (by decide)
    (by decide) (by decide) (by decide) (by decide)).2.2.1.2.1
      (Or.inl (by rw [abs_lt]; constructor <;> norm_num)),
   (sector_total 30 (by norm_num) (by norm_num) 3 3 [3, 0, 0, 0, 0, 2, 0, 0, 0]
    (List.replicate 9 0) (List.replicate 9 0) 1 1 (by decide) (by decide) (by decide)
    (by decide) (by decide) (by decide) (by decide)).2.2.2.1⟩

/-! ## Index safety -/

theorem forLoop_congr {σ : Type} (lo hi : Nat) (f g : Nat → σ → σ) (s : σ)
    (hfg : ∀ i t, lo ≤ i → i < hi → f i t = g i t) :
    forLoop lo hi f s = forLoop lo hi g s := by
  by_cases hle : lo ≤ hi
  · obtain ⟨n, rfl⟩ : ∃ n, hi = lo + n := ⟨hi - lo, by omega⟩
    clear hle
    induction n with
    | zero => rw [forLoop_of_le f s (Nat.le_of_eq (Nat.add_zero lo)),
        forLoop_of_le g s (Nat.le_of_eq (Nat.add_zero lo))]
    | succ n ih =>
      have e : lo + (n + 1) = (lo + n) + 1 := by omega
      rw [e, forLoop_step_right f s (by omega), forLoop_step_right g s (by omega),
        ih (fun i t h1 h2 => hfg i t h1 (by omega)), hfg _ _ (by omega) (by omega)]
  · rw [forLoop_of_le f s (by omega), forLoop_of_le g s (by omega)]

theorem pixelLoop_congr {σ : Type} (x0 x1 y0 y1 : Nat) (f g : Nat → Nat → σ → σ) (s : σ)
    (hfg : ∀ x y t, x0 ≤ x → x < x1 → y0 ≤ y → y < y1 → f x y t = g x y t) :
    pixelLoop x0 x1 y0 y1 f s = pixelLoop x0 x1 y0 y1 g s := by
  unfold pixelLoop
  apply forLoop_congr
  intro x t hx0 hx1
  apply forLoop_congr
  intro y t' hy0 hy1
  exact hfg x y t' hx0 hx1 hy0 hy1

/-- The test of the suppression loop reads `s_` only at the pixel itself. -/
theorem suppressZero_congr (w : Nat) (G s s' : List Nat) (pos : Nat)
    (h : s.getD pos 0 = s'.getD pos 0) : suppressZero w G s pos = suppressZero w G s' pos := by
  unfold suppressZero
  rw [h]

/-- The suppression stage reads `s_` only at the interior pixels. -/
theorem nonMaximaSuppression_congr (w h : Nat) (G s s' M : List Nat)
    (hss : ∀ x y, 1 ≤ x → x < w - 1 → 1 ≤ y → y < h - 1 →
      s.getD (x + y * w) 0 = s'.getD (x + y * w) 0) :
    nonMaximaSuppression w h G s M = nonMaximaSuppression w h G s' M := by
  unfold nonMaximaSuppression
  apply pixelLoop_congr
  intro x y t hx0 hx1 hy0 hy1
  rw [suppressStep_eq, suppressStep_eq, suppressZero_congr w G s s' _ (hss x y hx0 hx1 hy0 hy1)]

/-- C16 (counterexample): two detectors for 3 x 3 images that differ only in the prior
content of the border cell `G_[0]` return different maps for the same constant image: the
cell is read by `memcpy` and by the double threshold, and no stage writes it. -/
theorem edges_depends_on_border_G :
    ((Canny.new 3 3).edges (List.replicate 9 0) (List.replicate 9 7) NoiseFilter.Gaus3x3
        50 200).1 = [0, 0, 0, 0, 0, 0, 0, 0, 0] ∧
      (staleBorderDetector.edges (List.replicate 9 0)
        (List.replicate 9 7) NoiseFilter.Gaus3x3 50 200).1 = [255, 0, 0, 0, 0, 0, 0, 0, 0] := by
  decide

/-- C16 (amended): for arbitrary prior contents of `M_` and `s_` and of the interior cells
of `G_`, the result of a call of `Canny::edges` does not depend on them: two detectors of
the same size whose `G_` agree on the border cells return the same map and leave the same
`G_` and `M_`. The border cells of `G_` are read without being written in the call. -/
theorem edges_scratch_independent (c c' : Canny) (dst src : List Nat) (k : NoiseFilter)
    (weak strong : Int) (hw : c'.w_ = c.w_) (hh : c'.h_ = c.h_)
    (hG : c.G_.length = c.w_ * c.h_) (hG' : c'.G_.length = c.w_ * c.h_)
    (hs : c.s_.length = c.w_ * c.h_) (hs' : c'.s_.length = c.w_ * c.h_)
    (hborder : ∀ x, x < c.w_ → ∀ y, y < c.h_ →
      (x = 0 ∨ x + 1 = c.w_ ∨ y = 0 ∨ y + 1 = c.h_) →
      c'.G_.getD (x + y * c.w_) 0 = c.G_.getD (x + y * c.w_) 0) :
    (c'.edges dst src k weak strong).1 = (c.edges dst src k weak strong).1 ∧
      (c'.edges dst src k weak strong).2.G_ = (c.edges dst src k weak strong).2.G_ ∧
      (c'.edges dst src k weak strong).2.M_ = (c.edges dst src k weak strong).2.M_ := by
  have hsm : c'.smoothed dst src k = c.smoothed dst src k := by
    unfold Canny.smoothed
    rw [hw, hh]
  have hg1 : (c'.gradient dst src k).1 = (c.gradient dst src k).1 := by
    unfold Canny.gradient
    rw [hsm, hw, hh, sobel_eq, sobel_eq]
    simp only []
    apply pixelLoop_set_congr _ _ _ (Nat.sub_le _ 1) (by rw [hG, hG'])
    intro i hne
    by_cases hi : i < c.w_ * c.h_
    · obtain ⟨x, y, hx, hy, rfl⟩ := idx_cover hi
      apply hborder x hx y hy
      by_contra hint
      exact hne x y (by omega) (by omega) (by omega) (by omega) rfl
    · rw [getD_of_length_le _ (by omega), getD_of_length_le _ (by omega)]
  have hg2 : ∀ x y, 1 ≤ x → x < c.w_ - 1 → 1 ≤ y → y < c.h_ - 1 →
      (c'.gradient dst src k).2.getD (x + y * c.w_) 0
        = (c.gradient dst src k).2.getD (x + y * c.w_) 0 := by
    intro x y hx0 hx1 hy0 hy1
    unfold Canny.gradient
    rw [hsm, hw, hh]
    have hp : x + y * c.w_ < c.w_ * c.h_ := idx_lt (by omega) (by omega)
    rw [(sobel_getD c.w_ c.h_ _ c'.G_ c'.s_ hx0 (by omega) hy0 (by omega)).2 (by omega),
      (sobel_getD c.w_ c.h_ _ c.G_ c.s_ hx0 (by omega) hy0 (by omega)).2 (by omega)]
  have hsu : c'.suppressed dst src k = c.suppressed dst src k := by
    unfold Canny.suppressed
    simp only []
    rw [hg1, hw, hh]
    exact nonMaximaSuppression_congr _ _ _ _ _ _ hg2
  have hth : c'.thresholded dst src k weak strong = c.thresholded dst src k weak strong := by
    unfold Canny.thresholded
    rw [hsu, hsm, hw, hh]
  refine ⟨?_, hg1, hsu⟩
  show hysteresis c'.w_ c'.h_ (c'.thresholded dst src k weak strong)
    = hysteresis c.w_ c.h_ (c.thresholded dst src k weak strong)
  rw [hth, hw, hh]

/-- Witness for C16 (amended): a 3 x 3 detector whose `M_`, `s_` and centre cell of `G_`
hold stale values returns the map of a fresh detector. -/
theorem edges_scratch_independent_witness :
    (staleInteriorDetector.edges (List.replicate 9 0) [255, 0, 0, 255, 16, 0, 0, 0, 7]
        NoiseFilter.Gaus3x3 50 200).1
      = ((Canny.new 3 3).edges (List.replicate 9 0) [255, 0, 0, 255, 16, 0, 0, 0, 7]
        NoiseFilter.Gaus3x3 50 200).1 :=
  (edges_scratch_independent (Canny.new 3 3) staleInteriorDetector
    (List.replicate 9 0) [255, 0, 0, 255, 16, 0, 0, 0, 7] NoiseFilter.Gaus3x3 50 200
    rfl rfl (by decide) (by decide) (by decide) (by decide) (by decide)).1

/-! ## The border of the scratch buffers -/

/-- A call of `edges` keeps the size of the detector and the cells of `G_` and `s_` that
are not interior pixels. -/
theorem edges_frame (c : Canny) (dst src : List Nat) (k : NoiseFilter) (weak strong : Int) :
    (c.edges dst src k weak strong).2.w_ = c.w_ ∧
      (c.edges dst src k weak strong).2.h_ = c.h_ ∧
      ∀ i, (∀ x y, 1 ≤ x → x < c.w_ - 1 → 1 ≤ y → y < c.h_ - 1 → i ≠ x + y * c.w_) →
        (c.edges dst src k weak strong).2.G_.getD i 0 = c.G_.getD i 0 ∧
          (c.edges dst src k weak strong).2.s_.getD i 0 = c.s_.getD i 0 := by
  refine ⟨rfl, rfl, ?_⟩
  intro i hne
  exact sobel_frame c.w_ c.h_ _ c.G_ c.s_ i hne

theorem after_frame (calls : List Call) (c : Canny) :
    (c.after calls).w_ = c.w_ ∧ (c.after calls).h_ = c.h_ ∧
      ∀ i, (∀ x y, 1 ≤ x → x < c.w_ - 1 → 1 ≤ y → y < c.h_ - 1 → i ≠ x + y * c.w_) →
        (c.after calls).G_.getD i 0 = c.G_.getD i 0 ∧
          (c.after calls).s_.getD i 0 = c.s_.getD i 0 := by
  induction calls generalizing c with
  | nil => exact ⟨rfl, rfl, fun _ _ => ⟨rfl, rfl⟩⟩
  | cons a calls ih =>
    have hstep := edges_frame c a.dst a.src a.kernel_size a.weak_threshold a.strong_threshold
    have hrest := ih (c.edges a.dst a.src a.kernel_size a.weak_threshold a.strong_threshold).2
    have hunf : c.after (a :: calls)
        = (c.edges a.dst a.src a.kernel_size a.weak_threshold a.strong_threshold).2.after calls :=
      rfl
    rw [hunf]
    obtain ⟨hw, hh, hcells⟩ := hstep
    obtain ⟨hw', hh', hcells'⟩ := hrest
    refine ⟨hw'.trans hw, hh'.trans hh, ?_⟩
    intro i hne
    have h1 := hcells i hne
    have h2 := hcells' i (by rw [hw, hh]; exact hne)
    exact ⟨h2.1.trans h1.1, h2.2.trans h1.2⟩

/-- C17: after construction by `Canny(w, h)` and after any number of calls of `edges` with
any arguments, `G_` and `s_` are 0 at every pixel of the outermost 1-pixel border. -/
theorem border_invariant (w h : Nat) (calls : List Call) (x y : Nat) (hx : x < w) (hy : y < h)
    (hb : x = 0 ∨ x + 1 = w ∨ y = 0 ∨ y + 1 = h) :
    ((Canny.new w h).after calls).G_.getD (x + y * w) 0 = 0 ∧
      ((Canny.new w h).after calls).s_.getD (x + y * w) 0 = 0 := by
  have hne : ∀ a b, 1 ≤ a → a < (Canny.new w h).w_ - 1 → 1 ≤ b → b < (Canny.new w h).h_ - 1 →
      x + y * w ≠ a + b * (Canny.new w h).w_ := by
    intro a b ha0 ha1 hb0 hb1 hab
    have hw' : (Canny.new w h).w_ = w := rfl
    have hh' : (Canny.new w h).h_ = h := rfl
    rw [hw'] at ha1 hab
    rw [hh'] at hb1
    have := idx_inj hx (show a < w by omega) hab
    omega
  have hfr := (after_frame calls (Canny.new w h)).2.2 (x + y * w) hne
  rw [hfr.1, hfr.2]
  exact ⟨getD_replicate_lt 0 (idx_lt hx hy), getD_replicate_lt 0 (idx_lt hx hy)⟩

/-- Witness for C17: a 3 x 4 detector after two calls on the corner image, at the border
pixel (0,1). -/
theorem border_invariant_witness :
    ((Canny.new 3 4).after
        [⟨List.replicate 12 0, cornerImage, NoiseFilter.Gaus3x3, 300, 700⟩,
         ⟨List.replicate 12 0, cornerImage, NoiseFilter.Gaus5x5, 50, 200⟩]).G_.getD
        (0 + 1 * 3) 0 = 0 ∧
      ((Canny.new 3 4).after
        [⟨List.replicate 12 0, cornerImage, NoiseFilter.Gaus3x3, 300, 700⟩,
         ⟨List.replicate 12 0, cornerImage, NoiseFilter.Gaus5x5, 50, 200⟩]).s_.getD
        (0 + 1 * 3) 0 = 0 :=
  border_invariant 3 4
    [⟨List.replicate 12 0, cornerImage, NoiseFilter.Gaus3x3, 300, 700⟩,
     ⟨List.replicate 12 0, cornerImage, NoiseFilter.Gaus5x5, 50, 200⟩] 0 1
    (by decide) (by decide) (by decide)

/-! ## Hysteresis: promotion of a weak pixel -/

/-- The final value of an interior pixel that is 100 before the stage: the seven cells
tested hold the final value in the column to the left and the initial value elsewhere. -/
theorem hysteresis_visit_weak (w h : Nat) (T : List Nat) {x y : Nat}
    (hx0 : 1 ≤ x) (hx1 : x + 1 < w) (hy0 : 1 ≤ y) (hy1 : y + 1 < h)
    (hweak : T.getD (x + y * w) 0 = 100) :
    (hysteresis w h T).getD (x + y * w) 0 =
      if (hysteresis w h T).getD ((x - 1) + y * w) 0 = 255 ∨
          T.getD ((x + 1) + y * w) 0 = 255 ∨
          (hysteresis w h T).getD ((x - 1) + (y - 1) * w) 0 = 255 ∨
          T.getD ((x + 1) + (y - 1) * w) 0 = 255 ∨
          T.getD (x + (y + 1) * w) 0 = 255 ∨
          (hysteresis w h T).getD ((x - 1) + (y + 1) * w) 0 = 255 ∨
          T.getD ((x + 1) + (y + 1) * w) 0 = 255 then 255 else 0 := by
  have hlen : x + y * w < T.length := by
    by_contra hge
    rw [getD_of_length_le T (by omega)] at hweak
    omega
  have hxw : x < w := by omega
  have hw1 : 1 ≤ w := by omega
  have hyw : w ≤ y * w := Nat.le_mul_of_pos_left w hy0
  rw [hysteresis_visit w h T hx0 (by omega) hy0 (by omega) hlen,
    hysteresisValue_of_100 (by rw [hysteresisAt_self w h T hxw]; exact hweak)]
  have e3 : x + y * w - 1 - w = (x - 1) + (y - 1) * w := by
    rw [← idx_upleft w hx0 hy0]; omega
  have e4 : x + y * w + 1 - w = (x + 1) + (y - 1) * w := by
    rw [← idx_upright x hy0 hw1]; omega
  have e6 : x + y * w + w - 1 = (x - 1) + (y + 1) * w := by
    rw [← idx_downleft y hx0 hw1]; omega
  have e7 : x + y * w + w + 1 = (x + 1) + (y + 1) * w := by
    rw [← idx_downright x y w]; omega
  have e5 : x + y * w + w = x + (y + 1) * w := idx_down x y w
  have e1 : x + y * w - 1 = (x - 1) + y * w := idx_left y w hx0
  have e2 : x + y * w + 1 = (x + 1) + y * w := by omega
  rw [e3, e4, e6, e7, e5, e1, e2]
  rw [hysteresisAt_left w h T y hx0 (by omega) (show x - 1 < x by omega),
    hysteresisAt_left w h T (y - 1) hx0 (by omega) (show x - 1 < x by omega),
    hysteresisAt_left w h T (y + 1) hx0 (by omega) (show x - 1 < x by omega),
    hysteresisAt_later w h T hxw (show x + 1 < w by omega) (Or.inl (by omega)),
    hysteresisAt_later w h T hxw (show x + 1 < w by omega) (Or.inl (by omega)),
    hysteresisAt_later w h T hxw (show x + 1 < w by omega) (Or.inl (by omega)),
    hysteresisAt_later w h T hxw hxw (Or.inr ⟨rfl, by omega⟩)]

/-- A pixel that is 255 after the stage was 100 or 255 before it. -/
theorem hysteresis_255_source (w h : Nat) (T : List Nat) (i : Nat)
    (hout : (hysteresis w h T).getD i 0 = 255) : T.getD i 0 = 255 ∨ T.getD i 0 = 100 := by
  by_contra hn
  push_neg at hn
  exact hysteresis_not_255 w h T i hn.1 hn.2 hout

/-- A pixel outside the interior keeps its value. -/
theorem hysteresis_border (w h : Nat) (T : List Nat) {x y : Nat} (hx : x < w)
    (hb : ¬ (1 ≤ x ∧ x + 1 < w ∧ 1 ≤ y ∧ y + 1 < h)) :
    (hysteresis w h T).getD (x + y * w) 0 = T.getD (x + y * w) 0 := by
  apply hysteresis_frame
  intro a b ha0 ha1 hb0 hb1 hab
  have := idx_inj hx (show a < w by omega) hab
  omega

/-! ## Threshold monotonicity -/

theorem magGt_mono (m2 : Nat) {t1 t2 : Int} (ht : t1 ≤ t2) (h : magGt m2 t2 = true) :
    magGt m2 t1 = true := by
  unfold magGt at h ⊢
  rw [decide_eq_true_eq] at h ⊢
  rcases h with h | h
  · exact Or.inl (by omega)
  · by_cases h1 : t1 < 0
    · exact Or.inl h1
    · right
      have : t1 * t1 ≤ t2 * t2 := by nlinarith
      omega

/-- The hysteresis stage is monotone: if every 255 of `T2` is a 255 of `T1` and every 100 of
`T2` is a 100 or a 255 of `T1`, every 255 of the result on `T2` is a 255 of the result on
`T1`. -/
theorem hysteresis_mono (w h : Nat) (T1 T2 : List Nat)
    (h255 : ∀ i, T2.getD i 0 = 255 → T1.getD i 0 = 255)
    (h100 : ∀ i, T2.getD i 0 = 100 → T1.getD i 0 = 100 ∨ T1.getD i 0 = 255) (i : Nat)
    (hout : (hysteresis w h T2).getD i 0 = 255) : (hysteresis w h T1).getD i 0 = 255 := by
  have main : ∀ x, x < w → ∀ y, (hysteresis w h T2).getD (x + y * w) 0 = 255 →
      (hysteresis w h T1).getD (x + y * w) 0 = 255 := by
    intro x
    induction x using Nat.strong_induction_on with
    | _ x ih =>
      intro hx y hxy
      by_cases hint : 1 ≤ x ∧ x + 1 < w ∧ 1 ≤ y ∧ y + 1 < h
      · obtain ⟨hx0, hx1, hy0, hy1⟩ := hint
        rcases hysteresis_255_source w h T2 _ hxy with hs | hs
        · exact hysteresis_keeps_255 w h T1 _ (h255 _ hs)
        · rcases h100 _ hs with hs1 | hs1
          · rw [hysteresis_visit_weak w h T2 hx0 hx1 hy0 hy1 hs] at hxy
            rw [hysteresis_visit_weak w h T1 hx0 hx1 hy0 hy1 hs1]
            split at hxy
            · rename_i hc
              rw [if_pos]
              have hl := ih (x - 1) (by omega) (by omega)
              rcases hc with hc | hc | hc | hc | hc | hc | hc
              · exact Or.inl (hl _ hc)
              · exact Or.inr (Or.inl (h255 _ hc))
              · exact Or.inr (Or.inr (Or.inl (hl _ hc)))
              · exact Or.inr (Or.inr (Or.inr (Or.inl (h255 _ hc))))
              · exact Or.inr (Or.inr (Or.inr (Or.inr (Or.inl (h255 _ hc)))))
              · exact Or.inr (Or.inr (Or.inr (Or.inr (Or.inr (Or.inl (hl _ hc))))))
              · exact Or.inr (Or.inr (Or.inr (Or.inr (Or.inr (Or.inr (h255 _ hc))))))
            · exact absurd hxy (by decide)
          · exact hysteresis_keeps_255 w h T1 _ hs1
      · rw [hysteresis_border w h T2 hx hint] at hxy
        exact hysteresis_keeps_255 w h T1 _ (h255 _ hxy)
  by_cases hv : ∃ x y, 1 ≤ x ∧ x < w - 1 ∧ 1 ≤ y ∧ y < h - 1 ∧ i = x + y * w
  · obtain ⟨x, y, _, hx1, _, _, rfl⟩ := hv
    exact main x (by omega) y hout
  · rw [hysteresis_frame w h T2 i (fun x y h1 h2 h3 h4 h5 => hv ⟨x, y, h1, h2, h3, h4, h5⟩)]
      at hout
    exact hysteresis_keeps_255 w h T1 _ (h255 _ hout)

/-- The cells of the thresholded buffer: the class of the magnitude inside the grid, and
nothing (read as 0) outside. -/
theorem thresholded_getD (c : Canny) (dst src : List Nat) (k : NoiseFilter) (weak strong : Int)
    (hlen : dst.length = c.w_ * c.h_) (i : Nat) :
    (c.thresholded dst src k weak strong).getD i 0
      = if i < c.w_ * c.h_ then classify ((c.suppressed dst src k).getD i 0) weak strong
        else 0 := by
  split
  · rename_i hi
    obtain ⟨x, y, hx, hy, rfl⟩ := idx_cover hi
    unfold Canny.thresholded
    exact doubleThreshold_getD _ _ _ _ _ _ hx hy (by rw [smoothed_length, hlen])
  · exact getD_of_length_le _ (by rw [thresholded_length, hlen]; omega)

/-- C19: for a fixed source image and kernel and thresholds with `weak1 <= weak2` and
`strong1 <= strong2`, every pixel that is 255 in the map returned by `edges` with
`(weak2, strong2)` is also 255 in the map returned with `(weak1, strong1)`. -/
theorem edges_threshold_mono (c : Canny) (dst src : List Nat) (k : NoiseFilter)
    (weak1 weak2 strong1 strong2 : Int) (hweak : weak1 ≤ weak2) (hstrong : strong1 ≤ strong2)
    (hlen : dst.length = c.w_ * c.h_) (i : Nat)
    (hout : (c.edges dst src k weak2 strong2).1.getD i 0 = 255) :
    (c.edges dst src k weak1 strong1).1.getD i 0 = 255 := by
  have hun : ∀ wk st, (c.edges dst src k wk st).1
      = hysteresis c.w_ c.h_ (c.thresholded dst src k wk st) := fun _ _ => rfl
  rw [hun] at hout ⊢
  apply hysteresis_mono c.w_ c.h_ _ _ _ _ i hout
  · intro j hj
    rw [thresholded_getD c dst src k _ _ hlen] at hj ⊢
    split at hj
    · rename_i hjlt
      rw [if_pos hjlt]
      rw [classify_eq_255] at hj ⊢
      exact magGt_mono _ hstrong hj
    · exact absurd hj (by decide)
  · intro j hj
    rw [thresholded_getD c dst src k _ _ hlen] at hj
    rw [thresholded_getD c dst src k _ _ hlen]
    split at hj
    · rename_i hjlt
      rw [if_pos hjlt]
      rw [classify_eq_100] at hj
      have hw1 := magGt_mono _ hweak hj.1
      by_cases hs1 : magGt ((c.suppressed dst src k).getD j 0) strong1 = true
      · exact Or.inr ((classify_eq_255 _ _ _).2 hs1)
      · exact Or.inl ((classify_eq_100 _ _ _).2 ⟨hw1, hs1⟩)
    · exact absurd hj (by decide)

/-- Witness for C19: the corner image with thresholds (300, 700) and (100, 400), at the
pixel (1,1). -/
theorem edges_threshold_mono_witness :
    ((Canny.new 3 4).edges (List.replicate 12 0) cornerImage NoiseFilter.Gaus3x3
      100 400).1.getD 4 0 = 255 :=
  edges_threshold_mono (Canny.new 3 4) (List.replicate 12 0) cornerImage NoiseFilter.Gaus3x3
    100 300 400 700 (by decide) (by decide) (by decide) 4 (by decide)

/-! ## Hysteresis soundness -/

/-- Every pixel of the grid that is 255 after the hysteresis stage is joined, by a path of
8-adjacent pixels that are 255 after the stage, to a pixel that was 255 before it. -/
theorem hysteresis_sound (w h : Nat) (T : List Nat) :
    ∀ x, x < w → ∀ y, y < h → (hysteresis w h T).getD (x + y * w) 0 = 255 →
      ∃ x' y', x' < w ∧ y' < h ∧ T.getD (x' + y' * w) 0 = 255 ∧
        Relation.ReflTransGen (EdgeStep w h (hysteresis w h T)) (x, y) (x', y') := by
  intro x
  induction x using Nat.strong_induction_on with
  | _ x ih =>
    intro hx y hy hxy
    by_cases hint : 1 ≤ x ∧ x + 1 < w ∧ 1 ≤ y ∧ y + 1 < h
    · obtain ⟨hx0, hx1, hy0, hy1⟩ := hint
      rcases hysteresis_255_source w h T _ hxy with hs | hs
      · exact ⟨x, y, hx, hy, hs, Relation.ReflTransGen.refl⟩
      · rw [hysteresis_visit_weak w h T hx0 hx1 hy0 hy1 hs] at hxy
        split at hxy
        · rename_i hc
          -- a neighbour of the left column, already final
          have left : ∀ y', y' < h → y ≤ y' + 1 → y' ≤ y + 1 →
              (hysteresis w h T).getD ((x - 1) + y' * w) 0 = 255 →
              ∃ x' y', x' < w ∧ y' < h ∧ T.getD (x' + y' * w) 0 = 255 ∧
                Relation.ReflTransGen (EdgeStep w h (hysteresis w h T)) (x, y) (x', y') := by
            intro y' hy' h1 h2 hq
            obtain ⟨a, b, ha, hb, hab, hpath⟩ := ih (x - 1) (by omega) (by omega) y' hy' hq
            refine ⟨a, b, ha, hb, hab, Relation.ReflTransGen.head ?_ hpath⟩
            refine ⟨⟨?_, ?_, ?_, h1, h2⟩, ?_, hy', hq⟩
            · intro heq
              have := congrArg Prod.fst heq
              simp only [] at this
              omega
            · show x ≤ x - 1 + 1
              omega
            · show x - 1 ≤ x + 1
              omega
            · show x - 1 < w
              omega
          -- a neighbour that was 255 before the stage
          have later : ∀ x' y', x' < w → y' < h → (x, y) ≠ (x', y') → x ≤ x' + 1 →
              x' ≤ x + 1 → y ≤ y' + 1 → y' ≤ y + 1 → T.getD (x' + y' * w) 0 = 255 →
              ∃ x' y', x' < w ∧ y' < h ∧ T.getD (x' + y' * w) 0 = 255 ∧
                Relation.ReflTransGen (EdgeStep w h (hysteresis w h T)) (x, y) (x', y') := by
            intro x' y' hx' hy' hne h1 h2 h3 h4 hq
            exact ⟨x', y', hx', hy', hq, Relation.ReflTransGen.single
              ⟨⟨hne, h1, h2, h3, h4⟩, hx', hy', hysteresis_keeps_255 w h T _ hq⟩⟩
          rcases hc with hc | hc | hc | hc | hc | hc | hc
          · exact left y hy (by omega) (by omega) hc
          · exact later (x + 1) y (by omega) hy (by simp) (by omega) (by omega) (by omega)
              (by omega) hc
          · exact left (y - 1) (by omega) (by omega) (by omega) hc
          · exact later (x + 1) (y - 1) (by omega) (by omega) (by simp) (by omega) (by omega)
              (by omega) (by omega) hc
          · exact later x (y + 1) hx (by omega) (by simp) (by omega) (by omega) (by omega)
              (by omega) hc
          · exact left (y + 1) (by omega) (by omega) (by omega) hc
          · exact later (x + 1) (y + 1) (by omega) (by omega) (by simp) (by omega) (by omega)
              (by omega) (by omega) hc
        · exact absurd hxy (by decide)
    · rw [hysteresis_border w h T hx hint] at hxy
      exact ⟨x, y, hx, hy, hxy, Relation.ReflTransGen.refl⟩

/-- C18: every pixel that is 255 in the map returned by `Canny::edges` either was
classified 255 by the double threshold or is joined to such a pixel by a path of 8-adjacent
pixels that are all 255 in the returned map (a path of length 0 in the first case); and
every 255 pixel has `M` greater than the weak or the strong threshold. -/
theorem edges_sound (c : Canny) (dst src : List Nat) (k : NoiseFilter) (weak strong : Int)
    (x y : Nat) (hx : x < c.w_) (hy : y < c.h_) (hlen : dst.length = c.w_ * c.h_)
    (hout : (c.edges dst src k weak strong).1.getD (x + y * c.w_) 0 = 255) :
    (∃ x' y', x' < c.w_ ∧ y' < c.h_ ∧
        (c.thresholded dst src k weak strong).getD (x' + y' * c.w_) 0 = 255 ∧
        Relation.ReflTransGen (EdgeStep c.w_ c.h_ (c.edges dst src k weak strong).1)
          (x, y) (x', y')) ∧
      ((weak : ℝ) < Real.sqrt (((c.suppressed dst src k).getD (x + y * c.w_) 0 : Nat) : ℝ) ∨
        (strong : ℝ) < Real.sqrt (((c.suppressed dst src k).getD (x + y * c.w_) 0 : Nat) : ℝ)) := by
  have hun : (c.edges dst src k weak strong).1
      = hysteresis c.w_ c.h_ (c.thresholded dst src k weak strong) := rfl
  rw [hun] at hout ⊢
  refine ⟨hysteresis_sound c.w_ c.h_ _ x hx y hy hout, ?_⟩
  have hsrc := hysteresis_255_source c.w_ c.h_ _ _ hout
  rw [thresholded_getD c dst src k weak strong hlen, if_pos (idx_lt hx hy)] at hsrc
  rcases hsrc with hs | hs
  · exact Or.inr ((magGt_iff_sqrt _ _).1 ((classify_eq_255 _ _ _).1 hs))
  · exact Or.inl ((magGt_iff_sqrt _ _).1 ((classify_eq_100 _ _ _).1 hs).1)

/-- Witness for C18: the chain image, at the pixel (3,1), which is promoted through its
left neighbour. -/
theorem edges_sound_witness :
    ∃ x' y', x' < 5 ∧ y' < 3 ∧
      ((Canny.new 5 3).thresholded (List.replicate 15 0) chainImage NoiseFilter.Gaus3x3
        100 400).getD (x' + y' * 5) 0 = 255 ∧
      Relation.ReflTransGen
        (EdgeStep 5 3 ((Canny.new 5 3).edges (List.replicate 15 0) chainImage
          NoiseFilter.Gaus3x3 100 400).1) (3, 1) (x', y') :=
  (edges_sound (Canny.new 5 3) (List.replicate 15 0) chainImage NoiseFilter.Gaus3x3 100 400
    3 1 (by decide) (by decide) (by decide) (by decide)).1

/-! ## The border of the returned map -/

theorem magGt_zero (t : Int) : magGt 0 t = true ↔ t < 0 := by
  unfold magGt
  rw [decide_eq_true_eq]
  constructor
  · rintro (h | h)
    · exact h
    · have : 0 ≤ t * t := mul_self_nonneg t
      simp only [Nat.cast_zero] at h
      omega
  · exact Or.inl

theorem classify_zero (weak strong : Int) :
    (classify 0 weak strong = 100 ↔ weak < 0 ∧ 0 ≤ strong) ∧
      (classify 0 weak strong = 255 ↔ strong < 0) ∧
      (0 ≤ weak → 0 ≤ strong → classify 0 weak strong = 0) := by
  refine ⟨?_, ?_, ?_⟩
  · rw [classify_eq_100, magGt_zero, magGt_zero, not_lt]
  · rw [classify_eq_255, magGt_zero]
  · intro hw hs
    rcases classify_cases 0 weak strong with h | h | h
    · exact h
    · have := ((classify_eq_100 0 weak strong).1 h).1
      rw [magGt_zero] at this
      omega
    · have := (classify_eq_255 0 weak strong).1 h
      rw [magGt_zero] at this
      omega

/-- On a detector built by `Canny(w, h)`, after any calls, the suppressed magnitude of a
border pixel is 0: its cell of `G_` is 0 and no stage writes it. -/
theorem suppressed_border (w h : Nat) (calls : List Call) (dst src : List Nat)
    (k : NoiseFilter) {x y : Nat} (hx : x < w) (hy : y < h)
    (hb : x = 0 ∨ x + 1 = w ∨ y = 0 ∨ y + 1 = h) :
    (((Canny.new w h).after calls).suppressed dst src k).getD (x + y * w) 0 = 0 := by
  obtain ⟨hw', hh', hcells⟩ := after_frame calls (Canny.new w h)
  have hw0 : (Canny.new w h).w_ = w := rfl
  have hh0 : (Canny.new w h).h_ = h := rfl
  rw [hw0] at hw' hcells
  rw [hh0] at hh' hcells
  have hne : ∀ a b, 1 ≤ a → a < w - 1 → 1 ≤ b → b < h - 1 → x + y * w ≠ a + b * w := by
    intro a b ha0 ha1 hb0 hb1 hab
    have := idx_inj hx (show a < w by omega) hab
    omega
  have hG0 : ((Canny.new w h).after calls).G_.getD (x + y * w) 0 = 0 := by
    rw [(hcells _ hne).1]
    exact getD_replicate_lt 0 (idx_lt hx hy)
  unfold Canny.suppressed Canny.gradient
  simp only []
  rw [hw', hh', nonMaximaSuppression_frame w h _ _ _ _ hne, (sobel_frame w h _ _ _ _ hne).1]
  exact hG0

/-- C21: for a detector built by `Canny(w, h)` (fresh or after any calls) and any source
image and kernel, a border pixel of the map returned by `edges` holds the class of the
magnitude 0: it is 0 when `weak_threshold >= 0` and `strong_threshold >= 0`, and it is 100
exactly when `weak_threshold < 0 <= strong_threshold`; so with both thresholds at least 0
every pixel of the returned map is 0 or 255. -/
theorem edges_border_zero (w h : Nat) (calls : List Call) (dst src : List Nat)
    (k : NoiseFilter) (weak strong : Int) (x y : Nat) (hx : x < w) (hy : y < h)
    (hlen : dst.length = w * h) :
    ((x = 0 ∨ x + 1 = w ∨ y = 0 ∨ y + 1 = h) →
        (0 ≤ weak → 0 ≤ strong →
          (((Canny.new w h).after calls).edges dst src k weak strong).1.getD (x + y * w) 0
            = 0) ∧
        ((((Canny.new w h).after calls).edges dst src k weak strong).1.getD (x + y * w) 0
            = 100 ↔ weak < 0 ∧ 0 ≤ strong)) ∧
      (0 ≤ weak → 0 ≤ strong →
        (((Canny.new w h).after calls).edges dst src k weak strong).1.getD (x + y * w) 0 = 0 ∨
        (((Canny.new w h).after calls).edges dst src k weak strong).1.getD (x + y * w) 0
          = 255) := by
  obtain ⟨hw', hh', _⟩ := after_frame calls (Canny.new w h)
  have hw0 : (Canny.new w h).w_ = w := rfl
  have hh0 : (Canny.new w h).h_ = h := rfl
  rw [hw0] at hw'
  rw [hh0] at hh'
  have hun : (((Canny.new w h).after calls).edges dst src k weak strong).1
      = hysteresis w h (((Canny.new w h).after calls).thresholded dst src k weak strong) := by
    show hysteresis _ _ _ = _
    rw [hw', hh']
  have hlen' : dst.length = ((Canny.new w h).after calls).w_ * ((Canny.new w h).after calls).h_ :=
    by rw [hw', hh', hlen]
  have hborder : (x = 0 ∨ x + 1 = w ∨ y = 0 ∨ y + 1 = h) →
      (((Canny.new w h).after calls).edges dst src k weak strong).1.getD (x + y * w) 0
        = classify 0 weak strong := by
    intro hb
    rw [hun, hysteresis_border w h _ hx (by omega),
      thresholded_getD _ dst src k weak strong hlen', hw', hh', if_pos (idx_lt hx hy),
      suppressed_border w h calls dst src k hx hy hb]
  constructor
  · intro hb
    rw [hborder hb]
    exact ⟨(classify_zero weak strong).2.2, (classify_zero weak strong).1⟩
  · intro hweak hstrong
    by_cases hint : 1 ≤ x ∧ x + 1 < w ∧ 1 ≤ y ∧ y + 1 < h
    · obtain ⟨hx0, hx1, hy0, hy1⟩ := hint
      rw [hun, hysteresis_visit w h _ hx0 (by omega) hy0 (by omega)
        (by rw [thresholded_length, hlen]; exact idx_lt hx hy)]
      exact hysteresisValue_cases _ _ _
    · left
      rw [hborder (by omega)]
      exact (classify_zero weak strong).2.2 hweak hstrong

/-- Witness for C21: the corner image on a 3 x 4 detector that has served one call, with
thresholds 300 and 700, at the border pixel (0,1). -/
theorem edges_border_zero_witness :
    (((Canny.new 3 4).after
        [⟨List.replicate 12 0, cornerImage, NoiseFilter.Gaus5x5, 50, 200⟩]).edges
        (List.replicate 12 0) cornerImage NoiseFilter.Gaus3x3 300 700).1.getD (0 + 1 * 3) 0
      = 0 :=
  ((edges_border_zero 3 4 [⟨List.replicate 12 0, cornerImage, NoiseFilter.Gaus5x5, 50, 200⟩]
    (List.replicate 12 0) cornerImage NoiseFilter.Gaus3x3 300 700 0 1 (by decide) (by decide)
    (by decide)).1 (by decide)).1 (by decide) (by decide)

/-! ## Weak pixels in the in-place pass -/

/-- C2 (amended): an interior pixel that is 100 before the hysteresis stage and none of
whose 8 neighbours is 255 before the stage ends as 0, provided none of the four neighbours
that the in-place pass visits earlier, `(x-1, y-1)`, `(x-1, y)`, `(x-1, y+1)` and
`(x, y-1)`, is 255 in the final map; and an interior pixel that is 100 before the stage and
has a left-column neighbour that is 255 in the final map ends as 255. Nothing is stated for
a pixel whose up neighbour `(x, y-1)` alone is 255 in the final map. -/
theorem hysteresis_weak_pixel (w h : Nat) (T : List Nat) (x y : Nat)
    (hx0 : 1 ≤ x) (hx1 : x + 1 < w) (hy0 : 1 ≤ y) (hy1 : y + 1 < h)
    (hweak : T.getD (x + y * w) 0 = 100) :
    ((∀ i, i ≤ 2 → ∀ j, j ≤ 2 → (i, j) ≠ (1, 1) →
          T.getD ((x + i - 1) + (y + j - 1) * w) 0 ≠ 255) →
        (∀ j, j ≤ 2 → (hysteresis w h T).getD ((x - 1) + (y + j - 1) * w) 0 ≠ 255) →
        (hysteresis w h T).getD (x + (y - 1) * w) 0 ≠ 255 →
        (hysteresis w h T).getD (x + y * w) 0 = 0) ∧
      ((∃ j, j ≤ 2 ∧ (hysteresis w h T).getD ((x - 1) + (y + j - 1) * w) 0 = 255) →
        (hysteresis w h T).getD (x + y * w) 0 = 255) := by
  have e0 : y + 0 - 1 = y - 1 := by omega
  have e1 : y + 1 - 1 = y := by omega
  have e2 : y + 2 - 1 = y + 1 := by omega
  have f1 : x + 1 - 1 = x := by omega
  have f2 : x + 2 - 1 = x + 1 := by omega
  rw [hysteresis_visit_weak w h T hx0 hx1 hy0 hy1 hweak]
  constructor
  · intro hnb hleft _
    have l0 := hleft 0 (by omega)
    have l1 := hleft 1 (by omega)
    have l2 := hleft 2 (by omega)
    rw [e0] at l0
    rw [e1] at l1
    rw [e2] at l2
    have r0 := hnb 2 (by omega) 0 (by omega) (by simp)
    have r1 := hnb 2 (by omega) 1 (by omega) (by simp)
    have r2 := hnb 2 (by omega) 2 (by omega) (by simp)
    have r3 := hnb 1 (by omega) 2 (by omega) (by simp)
    rw [f2, e0] at r0
    rw [f2, e1] at r1
    rw [f2, e2] at r2
    rw [f1, e2] at r3
    rw [if_neg]
    rintro (hc | hc | hc | hc | hc | hc | hc) <;> contradiction
  · rintro ⟨j, hj, hq⟩
    rw [if_pos]
    have hj' : j = 0 ∨ j = 1 ∨ j = 2 := by omega
    rcases hj' with rfl | rfl | rfl
    · rw [e0] at hq
      exact Or.inr (Or.inr (Or.inl hq))
    · rw [e1] at hq
      exact Or.inl hq
    · rw [e2] at hq
      exact Or.inr (Or.inr (Or.inr (Or.inr (Or.inr (Or.inl hq)))))

/-- Witness for C2 (amended): in the 4 x 3 grid with the row `0, 100, 100, 0` the pixel
(2,1) ends as 0; in the 5 x 3 grid with the row `0, 255, 100, 100, 0` the pixel (3,1), whose
left neighbour is promoted, ends as 255. -/
theorem hysteresis_weak_pixel_witness :
    (hysteresis 4 3 [0, 0, 0, 0, 0, 100, 100, 0, 0, 0, 0, 0]).getD (2 + 1 * 4) 0 = 0 ∧
      (hysteresis 5 3 [0, 0, 0, 0, 0, 0, 255, 100, 100, 0, 0, 0, 0, 0, 0]).getD (3 + 1 * 5) 0
        = 255 :=
  ⟨(hysteresis_weak_pixel 4 3 [0, 0, 0, 0, 0, 100, 100, 0, 0, 0, 0, 0] 2 1
      (by decide) (by decide) (by decide) (by decide) (by decide)).1
      (by decide) (by decide) (by decide),
   (hysteresis_weak_pixel 5 3 [0, 0, 0, 0, 0, 0, 255, 100, 100, 0, 0, 0, 0, 0, 0] 3 1
      (by decide) (by decide) (by decide) (by decide) (by decide)).2
      ⟨1, by decide, by decide⟩⟩

end keymolen
